import Mathlib

/-!
Verification of the `cache2` LRU cache (`cache.go`), consisting of a plain
LRU cache (`SimpleCache`) and a write-back variant (`Cache`) that records
pending mutations in a dirty queue and replays them against an external
`Flusher` sink.

The embedding below follows the Go source line by line.  Go's
`map[string]*list.Element` lookup index is modeled as an association list
from keys to node identities, and the `container/list` recency list as a
Lean list of nodes carrying an `id` field that models pointer identity
(`Delete` leaves stale nodes in the recency list, and a key can be
re-inserted afterwards, so nodes cannot be identified by their key alone).
The mutex only serializes calls and has no sequential content; the
periodic-flush goroutine is timing behavior outside this sequential
embedding.  The `Flusher` is modeled by the trace of calls an operation
emits.
-/

/-- Go `interface{}` values stored in the cache: the untyped `nil` or an
opaque payload (payloads are modeled as strings; the cache never inspects
them).  `Get` and `Delete` return `nil` for an absent key. -/
inductive GoVal where
  | nil : GoVal
  | str : String → GoVal
deriving DecidableEq

/-- A node of the doubly linked recency list: `container/list`'s `Element`
holding a `*cacheItem` with `key` and `value`.  `id` models the pointer
identity of the element. -/
structure Element where
  id : Nat
  key : String
  value : GoVal
deriving DecidableEq

/-- Go map lookup `m[k]` on the association-list model of `map[string]β`. -/
def mapLookup {β : Type} : List (String × β) → String → Option β
  | [], _ => none
  | p :: rest, k => if p.1 = k then some p.2 else mapLookup rest k

/-- Go `delete(m, k)`: removes the entry for `k`.  Entries have pairwise
distinct keys in every reachable state, so removing the first occurrence
models map deletion. -/
def mapErase {β : Type} : List (String × β) → String → List (String × β)
  | [], _ => []
  | p :: rest, k => if p.1 = k then rest else p :: mapErase rest k

/-- Find the recency-list element with pointer identity `i` (the node an
index handle points at). -/
def findElem : List Element → Nat → Option Element
  | [], _ => none
  | e :: rest, i => if e.id = i then some e else findElem rest i

/-- Remove the element with pointer identity `i` from the recency list. -/
def removeElem : List Element → Nat → List Element
  | [], _ => []
  | e :: rest, i => if e.id = i then rest else e :: removeElem rest i

/-- `item.value = value` followed by `c.list.MoveToFront(e)` for the element
with identity `i`: update the node's value in place and move it to the
front.  As in `container/list`, a no-op if the element is not in the list. -/
def moveToFrontUpd (l : List Element) (i : Nat) (v : GoVal) : List Element :=
  match findElem l i with
  | some e => { e with value := v } :: removeElem l i
  | none => l

/-- `l.Back()` of the nonempty list `e :: rest`; Go returns a non-nil
element here. -/
def back1 : Element → List Element → Element
  | e, [] => e
  | _, x :: rest => back1 x rest

/-- `l.Remove(l.Back())` on the nonempty list `e :: rest`. -/
def dropBack1 : Element → List Element → List Element
  | _, [] => []
  | e, x :: rest => e :: dropBack1 x rest

/-- `l.Back()` on a possibly empty recency list: `nil` (`none`) when the
list is empty.  The cache dereferences the back element only inside `Set`,
right after a `PushFront`, where the list is provably nonempty. -/
def backElem : List Element → Option Element
  | [] => none
  | e :: rest => some (back1 e rest)

/-- The plain LRU cache, `SimpleCache` in cache.go: `data` is the lookup
index `map[string]*list.Element`, `list` the recency list (front = most
recently used), `capacity` the configured bound, `nextId` the next unused
node identity. -/
structure SimpleCache where
  data : List (String × Nat)
  list : List Element
  capacity : Int
  nextId : Nat
deriving DecidableEq

/-- `func NewSimple(capacity int) *SimpleCache`.  Note that the source
replaces a negative capacity by 1024 and stores that as the cache's
`capacity` field. -/
def NewSimple (capacity : Int) : SimpleCache :=
  let initialCapacity := if capacity < 0 then 1024 else capacity
  { data := [], list := [], capacity := initialCapacity, nextId := 0 }

/-- `func (c *SimpleCache) Len() int`. -/
def SimpleCache.Len (c : SimpleCache) : Nat := c.data.length

/-- `func (c *SimpleCache) Get(key string) interface{}`: on a hit, move the
node to the front and return its value; on a miss return `nil`.  The inner
`none` branch (a handle pointing at a node absent from the list) is
unreachable in any reachable state, see `InvS`. -/
def SimpleCache.Get (c : SimpleCache) (key : String) : GoVal × SimpleCache :=
  match mapLookup c.data key with
  | some i =>
    match findElem c.list i with
    | some e => (e.value, { c with list := e :: removeElem c.list i })
    | none => (GoVal.nil, c)
  | none => (GoVal.nil, c)

/-- `func (c *SimpleCache) Set(key string, value interface{})`: update and
move to front on a hit; otherwise push a fresh node at the front, insert it
into the index, and if the index now exceeds a non-negative capacity,
remove the back element from both the list and the index. -/
def SimpleCache.Set (c : SimpleCache) (key : String) (value : GoVal) : SimpleCache :=
  match mapLookup c.data key with
  | some i => { c with list := moveToFrontUpd c.list i value }
  | none =>
    let elem : Element := { id := c.nextId, key := key, value := value }
    let data' := (key, c.nextId) :: c.data
    if 0 ≤ c.capacity ∧ c.capacity < (data'.length : Int) then
      let last := back1 elem c.list
      { data := mapErase data' last.key, list := dropBack1 elem c.list,
        capacity := c.capacity, nextId := c.nextId + 1 }
    else
      { data := data', list := elem :: c.list, capacity := c.capacity,
        nextId := c.nextId + 1 }

/-- `func (c *SimpleCache) Delete(key string) interface{}`: removes the key
from the index and returns its prior value, or `nil` on a miss.  The source
never calls `list.Remove` here, so the node stays in the recency list. -/
def SimpleCache.Delete (c : SimpleCache) (key : String) : GoVal × SimpleCache :=
  match mapLookup c.data key with
  | some i =>
    let value := match findElem c.list i with
      | some e => e.value
      | none => GoVal.nil
    (value, { c with data := mapErase c.data key })
  | none => (GoVal.nil, c)

/-- `func (c *SimpleCache) Flush()` is a no-op. -/
def SimpleCache.Flush (c : SimpleCache) : SimpleCache := c

/-- One pending mutation record, `dirtyElement` in cache.go. -/
structure dirtyElement where
  modified : Bool
  removed : Bool
  key : String
  value : GoVal
deriving DecidableEq

/-- A call the cache makes on its `Flusher` sink. -/
inductive SinkCall where
  | add : String → GoVal → SinkCall
  | remove : String → SinkCall
deriving DecidableEq

/-- The write-back cache, `Cache` in cache.go: the simple cache's fields
plus the dirty queue, the flush threshold `maxNrDirty` and the stored
`flushPeriod` (in seconds). -/
structure Cache where
  flushPeriod : Int
  data : List (String × Nat)
  dirtyList : List dirtyElement
  list : List Element
  capacity : Int
  maxNrDirty : Int
  nextId : Nat
deriving DecidableEq

/-- `func New(capacity, maxNrDirty int, flushPeriod, flusher) *Cache`:
panics (modeled as `Except.error`) exactly when the flusher is nil; a
negative capacity is replaced by 1024 exactly as in `NewSimple`. -/
def New (capacity maxNrDirty : Int) (flushPeriod : Int) (flusher : Option Unit) :
    Except String Cache :=
  let initialCapacity := if capacity < 0 then 1024 else capacity
  match flusher with
  | none => Except.error "Should use NewSimple"
  | some _ =>
    Except.ok { flushPeriod := flushPeriod, data := [], dirtyList := [],
                list := [], capacity := initialCapacity,
                maxNrDirty := maxNrDirty, nextId := 0 }

/-- `func (c *Cache) Len() int`. -/
def Cache.Len (c : Cache) : Nat := c.data.length

/-- The sink calls `Flush`'s loop makes for the dirty records, front to
back and in source order: `Remove` for a removed record, otherwise `Add`
for a modified one. -/
def dirtyCalls : List dirtyElement → List SinkCall
  | [] => []
  | de :: rest =>
    if de.removed then SinkCall.remove de.key :: dirtyCalls rest
    else if de.modified then SinkCall.add de.key de.value :: dirtyCalls rest
    else dirtyCalls rest

/-- `func (c *Cache) Flush()`: replay the dirty queue front-to-back against
the flusher, then replace the queue by a fresh empty list. -/
def Cache.Flush (c : Cache) : Cache × List SinkCall :=
  ({ c with dirtyList := [] }, dirtyCalls c.dirtyList)

/-- `func (c *Cache) checkAndFlush()`: flush when `maxNrDirty` is
non-negative and the dirty queue has reached it. -/
def Cache.checkAndFlush (c : Cache) : Cache × List SinkCall :=
  if 0 ≤ c.maxNrDirty ∧ c.maxNrDirty ≤ (c.dirtyList.length : Int) then c.Flush
  else (c, [])

/-- `func (c *Cache) Get(key string) interface{}`: the same LRU read as the
simple cache; the dirty queue is not touched. -/
def Cache.Get (c : Cache) (key : String) : GoVal × Cache :=
  match mapLookup c.data key with
  | some i =>
    match findElem c.list i with
    | some e => (e.value, { c with list := e :: removeElem c.list i })
    | none => (GoVal.nil, c)
  | none => (GoVal.nil, c)

/-- The body of `func (c *Cache) Set` up to its deferred `checkAndFlush`:
the LRU update of `SimpleCache.Set` plus the unconditional append of an
upsert record to the dirty queue. -/
def Cache.setBody (c : Cache) (key : String) (value : GoVal) : Cache :=
  let de : dirtyElement :=
    { modified := true, removed := false, key := key, value := value }
  match mapLookup c.data key with
  | some i =>
    { c with list := moveToFrontUpd c.list i value,
             dirtyList := c.dirtyList ++ [de] }
  | none =>
    let elem : Element := { id := c.nextId, key := key, value := value }
    let data' := (key, c.nextId) :: c.data
    if 0 ≤ c.capacity ∧ c.capacity < (data'.length : Int) then
      let last := back1 elem c.list
      { c with data := mapErase data' last.key, list := dropBack1 elem c.list,
               dirtyList := c.dirtyList ++ [de], nextId := c.nextId + 1 }
    else
      { c with data := data', list := elem :: c.list,
               dirtyList := c.dirtyList ++ [de], nextId := c.nextId + 1 }

/-- `func (c *Cache) Set`: the body runs under the lock; the deferred
`checkAndFlush` runs afterwards (deferred calls run LIFO, so after the
unlock).  Returns the state and the trace of sink calls it emitted. -/
def Cache.Set (c : Cache) (key : String) (value : GoVal) : Cache × List SinkCall :=
  (c.setBody key value).checkAndFlush

/-- `func (c *Cache) Delete(key string) interface{}`: unconditionally
append a removal record to the dirty queue, then remove the key from the
index (again not from the recency list) and return its prior value, or
`nil` on a miss.  There is no flush check in this method. -/
def Cache.Delete (c : Cache) (key : String) : GoVal × Cache :=
  let de : dirtyElement :=
    { modified := false, removed := true, key := key, value := GoVal.nil }
  let c' : Cache := { c with dirtyList := c.dirtyList ++ [de] }
  match mapLookup c'.data key with
  | some i =>
    let value := match findElem c'.list i with
      | some e => e.value
      | none => GoVal.nil
    (value, { c' with data := mapErase c'.data key })
  | none => (GoVal.nil, c')

/-- The LRU part of a write-back cache; `Cache`'s operations act on it
exactly as the simple cache's operations do. -/
def Cache.toSimple (c : Cache) : SimpleCache :=
  { data := c.data, list := c.list, capacity := c.capacity, nextId := c.nextId }

/-- Run a sequence of `Set` calls against the simple cache. -/
def SimpleCache.runSets (c : SimpleCache) (sets : List (String × GoVal)) : SimpleCache :=
  sets.foldl (fun st p => st.Set p.1 p.2) c

/-- Run a sequence of `Set` calls against the write-back cache, discarding
the emitted sink traces. -/
def Cache.runSets (c : Cache) (sets : List (String × GoVal)) : Cache :=
  sets.foldl (fun st p => (st.Set p.1 p.2).1) c

/-- A public call in a `Set`/`Get` trace. -/
inductive Op where
  | set : String → GoVal → Op
  | get : String → Op
deriving DecidableEq

/-- The key an operation touches. -/
def Op.key : Op → String
  | set k _ => k
  | get k => k

/-- Apply one trace operation to the simple cache. -/
def SimpleCache.applyOp (c : SimpleCache) : Op → SimpleCache
  | Op.set k v => c.Set k v
  | Op.get k => (c.Get k).2

/-- Run a `Set`/`Get` trace against the simple cache. -/
def SimpleCache.runOps (c : SimpleCache) (ops : List Op) : SimpleCache :=
  ops.foldl SimpleCache.applyOp c

/-- The keys of the `Set` calls of a trace, in order. -/
def setKeysOf : List Op → List String
  | [] => []
  | Op.set k _ :: rest => k :: setKeysOf rest
  | Op.get _ :: rest => setKeysOf rest

/-- The values of the `Set` calls of a trace. -/
def setValsOf : List Op → List GoVal
  | [] => []
  | Op.set _ v :: rest => v :: setValsOf rest
  | Op.get _ :: rest => setValsOf rest

/-- The keys all operations of a trace touch, in order. -/
def opsKeysOf (ops : List Op) : List String := ops.map Op.key

/-- Every `Get` of the trace is for a key `Set` earlier; `seen` accumulates
the keys set so far. -/
def goodFrom (seen : List String) : List Op → Bool
  | [] => true
  | Op.set k _ :: rest => goodFrom (k :: seen) rest
  | Op.get k :: rest => decide (k ∈ seen) && goodFrom seen rest

/-- Index of the first occurrence of `k` in `l` (`l.length` if absent). -/
def firstIdx : List String → String → Nat
  | [], _ => 0
  | x :: rest, k => if x = k then 0 else firstIdx rest k + 1

/-- How many touches ago key `k` was last touched, counting back from the
end of the touch sequence: 0 means `k` was the most recent touch; a larger
value means touched longer ago. -/
def sinceLast (touches : List String) (k : String) : Nat :=
  firstIdx touches.reverse k

/-- One step of the abstract recency order (keys only, front = most
recent), mirroring what `Set`/`Get` do to the key order of the recency
list on a coherent state. -/
def absApply (cap : Int) (l : List String) : Op → List String
  | Op.set k _ =>
    if k ∈ l then k :: l.erase k
    else if 0 ≤ cap ∧ cap < ((l.length + 1 : Nat) : Int) then (k :: l).dropLast
    else k :: l
  | Op.get k => if k ∈ l then k :: l.erase k else l

/-- Run a trace on the abstract recency order. -/
def absRun (cap : Int) (l : List String) (ops : List Op) : List String :=
  ops.foldl (absApply cap) l

/-- The test harness's `memFlusher` (cache_test.go): a sink whose `Add`
assigns into a map and whose `Remove` deletes from it. -/
def memFlusherApply (m : List (String × GoVal)) : SinkCall → List (String × GoVal)
  | SinkCall.add k v => (k, v) :: mapErase m k
  | SinkCall.remove k => mapErase m k

/-- Replay a trace of sink calls against the `memFlusher` map. -/
def memFlusherRun (m : List (String × GoVal)) (calls : List SinkCall) :
    List (String × GoVal) :=
  calls.foldl memFlusherApply m

/-- Structural health of the index/list pair, satisfied by every state of
the simple cache reachable through the public interface (`Delete`
included): index keys and node identities are unambiguous, every index
handle points at a live node with the matching key, and node identities
stay below the allocation counter. -/
structure InvS (c : SimpleCache) : Prop where
  dataNodup : (c.data.map Prod.fst).Nodup
  idsNodup : (c.list.map Element.id).Nodup
  handles : ∀ p ∈ c.data, ∃ e, e ∈ c.list ∧ e.id = p.2 ∧ e.key = p.1
  idBound : ∀ e ∈ c.list, e.id < c.nextId

/-- The full index/list coherence invariant: additionally, list keys are
pairwise distinct and every node is indexed, so index and list hold
exactly the same keys.  It holds on `Set`/`Get`-only reachable states; the
claim that `Delete` preserves it fails on the code. -/
structure WFS (c : SimpleCache) extends InvS c : Prop where
  keysNodup : (c.list.map Element.key).Nodup
  covers : ∀ e ∈ c.list, (e.key, e.id) ∈ c.data

/-- States of the simple cache reachable through the public interface. -/
inductive ReachableS : SimpleCache → Prop
  | new (capacity : Int) : ReachableS (NewSimple capacity)
  | set {c} (key : String) (value : GoVal) :
      ReachableS c → ReachableS (c.Set key value)
  | get {c} (key : String) : ReachableS c → ReachableS (c.Get key).2
  | del {c} (key : String) : ReachableS c → ReachableS (c.Delete key).2
  | flush {c} : ReachableS c → ReachableS c.Flush

/-- States of the write-back cache reachable through the public interface. -/
inductive ReachableC : Cache → Prop
  | new {c} (capacity maxNrDirty flushPeriod : Int) (u : Unit) :
      New capacity maxNrDirty flushPeriod (some u) = Except.ok c → ReachableC c
  | set {c} (key : String) (value : GoVal) :
      ReachableC c → ReachableC (c.Set key value).1
  | get {c} (key : String) : ReachableC c → ReachableC (c.Get key).2
  | del {c} (key : String) : ReachableC c → ReachableC (c.Delete key).2
  | flush {c} : ReachableC c → ReachableC (c.Flush).1

/-- The n-th member of a family of pairwise distinct keys. -/
def natKey (n : Nat) : String := String.mk (List.replicate n 'a')

/-- 1025 `Set` calls with pairwise distinct keys. -/
def bigSets : List (String × GoVal) :=
  (List.range 1025).map (fun n => (natKey n, GoVal.str "x"))

/-- The write-back cache `New 5 maxNrDirty 0 flusher` returns (capacity 5,
no pending state), used as a concrete input below. -/
def freshCache (maxNrDirty : Int) : Cache :=
  { flushPeriod := 0, data := [], dirtyList := [], list := [],
    capacity := 5, maxNrDirty := maxNrDirty, nextId := 0 }

/-! ### Basic lemmas about the association-list map model -/

theorem mapLookup_eq_none_iff {β : Type} (m : List (String × β)) (k : String) :
    mapLookup m k = none ↔ ∀ p ∈ m, p.1 ≠ k := by
  induction m with
  | nil => simp [mapLookup]
  | cons p rest ih =>
    by_cases h : p.1 = k <;> simp [mapLookup, h, ih]

theorem mapLookup_mem {β : Type} {m : List (String × β)} {k : String} {b : β}
    (h : mapLookup m k = some b) : (k, b) ∈ m := by
  induction m with
  | nil => simp [mapLookup] at h
  | cons p rest ih =>
    by_cases hpk : p.1 = k
    · rw [mapLookup, if_pos hpk] at h
      have : p = (k, b) := by
        cases p
        simp only [Option.some.injEq] at h
        simp_all
      simp [this]
    · rw [mapLookup, if_neg hpk] at h
      exact List.mem_cons_of_mem _ (ih h)

theorem mapLookup_ne_none_of_mem {β : Type} {m : List (String × β)} {k : String} {b : β}
    (h : (k, b) ∈ m) : mapLookup m k ≠ none := by
  intro hnone
  exact (mapLookup_eq_none_iff m k).mp hnone (k, b) h rfl

theorem keys_mapErase {β : Type} (m : List (String × β)) (k : String) :
    (mapErase m k).map Prod.fst = (m.map Prod.fst).erase k := by
  induction m with
  | nil => simp [mapErase]
  | cons p rest ih =>
    by_cases h : p.1 = k
    · simp [mapErase, h, List.erase_cons]
    · simp only [mapErase, if_neg h, List.map_cons, List.erase_cons]
      rw [if_neg (by simpa using fun hh => h (by simpa using hh)), ih]

theorem mem_of_mem_mapErase {β : Type} {m : List (String × β)} {k : String}
    {p : String × β} (h : p ∈ mapErase m k) : p ∈ m := by
  induction m with
  | nil => simp [mapErase] at h
  | cons q rest ih =>
    by_cases hq : q.1 = k
    · rw [mapErase, if_pos hq] at h
      exact List.mem_cons_of_mem _ h
    · rw [mapErase, if_neg hq] at h
      rcases List.mem_cons.mp h with h | h
      · simp [h]
      · exact List.mem_cons_of_mem _ (ih h)

theorem mem_mapErase_of_ne {β : Type} {m : List (String × β)} {k : String}
    {p : String × β} (hp : p ∈ m) (hne : p.1 ≠ k) : p ∈ mapErase m k := by
  induction m with
  | nil => simp at hp
  | cons q rest ih =>
    by_cases hq : q.1 = k
    · rw [mapErase, if_pos hq]
      rcases List.mem_cons.mp hp with h | h
      · exact absurd (h ▸ hq) hne
      · exact h
    · rw [mapErase, if_neg hq]
      rcases List.mem_cons.mp hp with h | h
      · exact h ▸ List.mem_cons_self q _
      · exact List.mem_cons_of_mem _ (ih h)

theorem fst_ne_of_mem_mapErase {β : Type} {m : List (String × β)} {k : String}
    (hnodup : (m.map Prod.fst).Nodup) {p : String × β}
    (h : p ∈ mapErase m k) : p.1 ≠ k := by
  intro hk
  have hmem : p.1 ∈ (mapErase m k).map Prod.fst := List.mem_map_of_mem _ h
  rw [keys_mapErase] at hmem
  exact ((List.Nodup.mem_erase_iff hnodup).mp hmem).1 hk

theorem mapLookup_mapErase_ne {β : Type} (m : List (String × β)) {k k' : String}
    (h : k' ≠ k) : mapLookup (mapErase m k) k' = mapLookup m k' := by
  induction m with
  | nil => simp [mapErase]
  | cons p rest ih =>
    by_cases hp : p.1 = k
    · rw [mapErase, if_pos hp, mapLookup,
        if_neg (fun hh : p.1 = k' => h (by rw [← hh, hp]))]
    · rw [mapErase, if_neg hp, mapLookup, mapLookup]
      by_cases hp' : p.1 = k'
      · rw [if_pos hp', if_pos hp']
      · rw [if_neg hp', if_neg hp', ih]

/-! ### Basic lemmas about the recency-list primitives -/

theorem findElem_eq_none_iff (l : List Element) (i : Nat) :
    findElem l i = none ↔ ∀ e ∈ l, e.id ≠ i := by
  induction l with
  | nil => simp [findElem]
  | cons e rest ih =>
    by_cases h : e.id = i <;> simp [findElem, h, ih]

theorem findElem_mem {l : List Element} {i : Nat} {e : Element}
    (h : findElem l i = some e) : e ∈ l ∧ e.id = i := by
  induction l with
  | nil => simp [findElem] at h
  | cons x rest ih =>
    by_cases hx : x.id = i
    · rw [findElem, if_pos hx] at h
      cases h
      exact ⟨List.mem_cons_self _ _, hx⟩
    · rw [findElem, if_neg hx] at h
      exact ⟨List.mem_cons_of_mem _ (ih h).1, (ih h).2⟩

theorem eq_of_mem_of_id_eq {l : List Element}
    (hnodup : (l.map Element.id).Nodup) {e e' : Element}
    (he : e ∈ l) (he' : e' ∈ l) (hid : e.id = e'.id) : e = e' := by
  induction l with
  | nil => simp at he
  | cons x rest ih =>
    simp only [List.map_cons, List.nodup_cons] at hnodup
    rcases List.mem_cons.mp he with h | h <;> rcases List.mem_cons.mp he' with h' | h'
    · rw [h, h']
    · subst h
      have hm : e'.id ∈ rest.map Element.id := List.mem_map_of_mem Element.id h'
      rw [← hid] at hm
      exact absurd hm hnodup.1
    · subst h'
      have hm : e.id ∈ rest.map Element.id := List.mem_map_of_mem Element.id h
      rw [hid] at hm
      exact absurd hm hnodup.1
    · exact ih hnodup.2 h h'

theorem findElem_eq_some_of_mem {l : List Element}
    (hnodup : (l.map Element.id).Nodup) {e : Element}
    (he : e ∈ l) : findElem l e.id = some e := by
  induction l with
  | nil => simp at he
  | cons x rest ih =>
    simp only [List.map_cons, List.nodup_cons] at hnodup
    by_cases hx : x.id = e.id
    · rw [findElem, if_pos hx]
      rcases List.mem_cons.mp he with h | h
      · rw [h]
      · have hm : e.id ∈ rest.map Element.id := List.mem_map_of_mem Element.id h
        rw [← hx] at hm
        exact absurd hm hnodup.1
    · rw [findElem, if_neg hx]
      rcases List.mem_cons.mp he with h | h
      · subst h
        exact absurd rfl hx
      · exact ih hnodup.2 h

theorem mem_of_mem_removeElem {l : List Element} {i : Nat} {x : Element}
    (h : x ∈ removeElem l i) : x ∈ l := by
  induction l with
  | nil => simp [removeElem] at h
  | cons e rest ih =>
    by_cases he : e.id = i
    · rw [removeElem, if_pos he] at h
      exact List.mem_cons_of_mem _ h
    · rw [removeElem, if_neg he] at h
      rcases List.mem_cons.mp h with h | h
      · rw [h]
        exact List.mem_cons_self e _
      · exact List.mem_cons_of_mem _ (ih h)

theorem mem_removeElem_of_ne {l : List Element} {i : Nat} {x : Element}
    (hx : x ∈ l) (hne : x.id ≠ i) : x ∈ removeElem l i := by
  induction l with
  | nil => simp at hx
  | cons e rest ih =>
    by_cases he : e.id = i
    · rw [removeElem, if_pos he]
      rcases List.mem_cons.mp hx with h | h
      · rw [h] at hne
        exact absurd he hne
      · exact h
    · rw [removeElem, if_neg he]
      rcases List.mem_cons.mp hx with h | h
      · rw [h]
        exact List.mem_cons_self e _
      · exact List.mem_cons_of_mem _ (ih h)

theorem ids_removeElem (l : List Element) (i : Nat) :
    (removeElem l i).map Element.id = (l.map Element.id).erase i := by
  induction l with
  | nil => simp [removeElem]
  | cons e rest ih =>
    by_cases he : e.id = i
    · simp [removeElem, he, List.erase_cons]
    · simp only [removeElem, if_neg he, List.map_cons, List.erase_cons]
      rw [if_neg (by simpa using he), ih]

theorem keys_removeElem {l : List Element}
    (hids : (l.map Element.id).Nodup) (hkeys : (l.map Element.key).Nodup)
    {e : Element} (he : e ∈ l) :
    (removeElem l e.id).map Element.key = (l.map Element.key).erase e.key := by
  induction l with
  | nil => simp at he
  | cons x rest ih =>
    simp only [List.map_cons, List.nodup_cons] at hids hkeys
    by_cases hx : x.id = e.id
    · have hxe : x = e := by
        rcases List.mem_cons.mp he with h | h
        · exact h.symm
        · have hm : e.id ∈ rest.map Element.id := List.mem_map_of_mem Element.id h
          rw [← hx] at hm
          exact absurd hm hids.1
      rw [removeElem, if_pos hx, List.map_cons, hxe, List.erase_cons_head]
    · have hmem : e ∈ rest := by
        rcases List.mem_cons.mp he with h | h
        · subst h
          exact absurd rfl hx
        · exact h
      have hkne : x.key ≠ e.key := by
        intro hc
        have hm : e.key ∈ rest.map Element.key := List.mem_map_of_mem Element.key hmem
        rw [← hc] at hm
        exact hkeys.1 hm
      rw [removeElem, if_neg hx]
      simp only [List.map_cons]
      rw [List.erase_cons, if_neg (by simpa using hkne), ih hids.2 hkeys.2 hmem]

theorem cons_eq_dropBack1_append (e : Element) (l : List Element) :
    e :: l = dropBack1 e l ++ [back1 e l] := by
  induction l generalizing e with
  | nil => simp [dropBack1, back1]
  | cons x rest ih =>
    rw [dropBack1, back1, List.cons_append, ← ih]

theorem backElem_cons (e : Element) (l : List Element) :
    backElem (e :: l) = some (back1 e l) := rfl

/-! ### Invariant preservation for the simple cache's operations -/

theorem invS_handle {c : SimpleCache} (h : InvS c) {k : String} {i : Nat}
    (hl : mapLookup c.data k = some i) :
    ∃ e, findElem c.list i = some e ∧ e ∈ c.list ∧ e.id = i ∧ e.key = k := by
  obtain ⟨e, he, hid, hkey⟩ := h.handles (k, i) (mapLookup_mem hl)
  refine ⟨e, ?_, he, hid, hkey⟩
  have hf := findElem_eq_some_of_mem h.idsNodup he
  rw [hid] at hf
  exact hf

theorem get_eq_of_lookup_none {c : SimpleCache} {k : String}
    (h : mapLookup c.data k = none) : c.Get k = (GoVal.nil, c) := by
  simp [SimpleCache.Get, h]

theorem get_eq_of_found {c : SimpleCache} {k : String} {i : Nat} {e : Element}
    (hl : mapLookup c.data k = some i) (hf : findElem c.list i = some e) :
    c.Get k = (e.value, { c with list := e :: removeElem c.list i }) := by
  simp [SimpleCache.Get, hl, hf]

theorem invS_moveFront {c : SimpleCache} (h : InvS c) {i : Nat} {e x : Element}
    (hf : findElem c.list i = some e) (hxid : x.id = i) (hxkey : x.key = e.key) :
    InvS { c with list := x :: removeElem c.list i } := by
  obtain ⟨hel, heid⟩ := findElem_mem hf
  constructor
  · exact h.dataNodup
  · show (Element.id x :: (removeElem c.list i).map Element.id).Nodup
    rw [ids_removeElem, hxid, List.nodup_cons]
    exact ⟨fun hc => ((List.Nodup.mem_erase_iff h.idsNodup).mp hc).1 rfl,
      List.Nodup.erase i h.idsNodup⟩
  · intro p hp
    obtain ⟨e', he', hid', hkey'⟩ := h.handles p hp
    by_cases hii : e'.id = i
    · have : e' = e := eq_of_mem_of_id_eq h.idsNodup he' hel (hii.trans heid.symm)
      exact ⟨x, List.mem_cons_self _ _, by rw [hxid, ← hii, hid'],
        by rw [hxkey, ← this, hkey']⟩
    · exact ⟨e', List.mem_cons_of_mem _ (mem_removeElem_of_ne he' hii), hid', hkey'⟩
  · intro y hy
    rcases List.mem_cons.mp hy with hyx | hyr
    · rw [hyx, hxid, ← heid]
      exact h.idBound e hel
    · exact h.idBound y (mem_of_mem_removeElem hyr)

theorem invS_Get {c : SimpleCache} (h : InvS c) (k : String) :
    InvS (c.Get k).2 ∧ (c.Get k).2.data = c.data ∧
    (c.Get k).2.capacity = c.capacity ∧ (c.Get k).2.nextId = c.nextId ∧
    ∀ x ∈ (c.Get k).2.list, x ∈ c.list := by
  cases hl : mapLookup c.data k with
  | none =>
    rw [get_eq_of_lookup_none hl]
    exact ⟨h, rfl, rfl, rfl, fun x hx => hx⟩
  | some i =>
    obtain ⟨e, hf, he, hid, hkey⟩ := invS_handle h hl
    rw [get_eq_of_found hl hf]
    refine ⟨invS_moveFront h hf hid rfl, rfl, rfl, rfl, fun x hx => ?_⟩
    rcases List.mem_cons.mp hx with hx | hx
    · rw [hx]
      exact he
    · exact mem_of_mem_removeElem hx

theorem invS_Delete {c : SimpleCache} (h : InvS c) (k : String) :
    InvS (c.Delete k).2 ∧ (c.Delete k).2.list = c.list ∧
    (c.Delete k).2.capacity = c.capacity ∧ (c.Delete k).2.nextId = c.nextId := by
  cases hl : mapLookup c.data k with
  | none =>
    have hd : (c.Delete k).2 = c := by simp [SimpleCache.Delete, hl]
    rw [hd]
    exact ⟨h, rfl, rfl, rfl⟩
  | some i =>
    have hd : (c.Delete k).2 = { c with data := mapErase c.data k } := by
      simp [SimpleCache.Delete, hl]
    rw [hd]
    refine ⟨?_, rfl, rfl, rfl⟩
    constructor
    · show ((mapErase c.data k).map Prod.fst).Nodup
      rw [keys_mapErase]
      exact List.Nodup.erase k h.dataNodup
    · exact h.idsNodup
    · intro p hp
      exact h.handles p (mem_of_mem_mapErase hp)
    · exact h.idBound

theorem not_mem_keys_of_lookup_none {β : Type} {m : List (String × β)} {k : String}
    (h : mapLookup m k = none) : k ∉ m.map Prod.fst := by
  intro hc
  obtain ⟨p, hp, hpk⟩ := List.mem_map.mp hc
  exact (mapLookup_eq_none_iff m k).mp h p hp hpk

theorem set_eq_of_hit {c : SimpleCache} {k : String} {i : Nat} (v : GoVal)
    (hl : mapLookup c.data k = some i) :
    c.Set k v = { c with list := moveToFrontUpd c.list i v } := by
  simp [SimpleCache.Set, hl]

theorem set_eq_of_miss_evict {c : SimpleCache} {k : String} (v : GoVal)
    (hl : mapLookup c.data k = none)
    (hcap : 0 ≤ c.capacity ∧ c.capacity < ((c.data.length + 1 : Nat) : Int)) :
    c.Set k v =
      { data := mapErase ((k, c.nextId) :: c.data)
          (back1 ⟨c.nextId, k, v⟩ c.list).key,
        list := dropBack1 ⟨c.nextId, k, v⟩ c.list,
        capacity := c.capacity, nextId := c.nextId + 1 } := by
  simp only [SimpleCache.Set, hl, List.length_cons]
  rw [if_pos hcap]

theorem set_eq_of_miss_noevict {c : SimpleCache} {k : String} (v : GoVal)
    (hl : mapLookup c.data k = none)
    (hcap : ¬(0 ≤ c.capacity ∧ c.capacity < ((c.data.length + 1 : Nat) : Int))) :
    c.Set k v =
      { data := (k, c.nextId) :: c.data, list := ⟨c.nextId, k, v⟩ :: c.list,
        capacity := c.capacity, nextId := c.nextId + 1 } := by
  simp only [SimpleCache.Set, hl, List.length_cons]
  rw [if_neg hcap]

theorem invS_Set {c : SimpleCache} (h : InvS c) (k : String) (v : GoVal) :
    InvS (c.Set k v) ∧ (c.Set k v).capacity = c.capacity := by
  cases hl : mapLookup c.data k with
  | some i =>
    obtain ⟨e, hf, he, hid, hkey⟩ := invS_handle h hl
    rw [set_eq_of_hit v hl]
    have hmv : moveToFrontUpd c.list i v = { e with value := v } :: removeElem c.list i := by
      rw [moveToFrontUpd, hf]
    rw [hmv]
    exact ⟨invS_moveFront h hf hid rfl, rfl⟩
  | none =>
    have hknotin : k ∉ c.data.map Prod.fst := not_mem_keys_of_lookup_none hl
    have hidfresh : c.nextId ∉ c.list.map Element.id := by
      intro hc
      obtain ⟨e, he, hie⟩ := List.mem_map.mp hc
      exact absurd hie (Nat.ne_of_lt (h.idBound e he))
    have hdn' : (((k, c.nextId) :: c.data).map Prod.fst).Nodup := by
      rw [List.map_cons]
      exact List.nodup_cons.mpr ⟨hknotin, h.dataNodup⟩
    have hin' : (((⟨c.nextId, k, v⟩ : Element) :: c.list).map Element.id).Nodup := by
      rw [List.map_cons]
      exact List.nodup_cons.mpr ⟨hidfresh, h.idsNodup⟩
    by_cases hcap : 0 ≤ c.capacity ∧ c.capacity < ((c.data.length + 1 : Nat) : Int)
    · rw [set_eq_of_miss_evict v hl hcap]
      have hEQ := cons_eq_dropBack1_append (⟨c.nextId, k, v⟩ : Element) c.list
      refine ⟨⟨?_, ?_, ?_, ?_⟩, rfl⟩
      · show ((mapErase _ _).map Prod.fst).Nodup
        rw [keys_mapErase]
        exact List.Nodup.erase _ hdn'
      · show ((dropBack1 _ _).map Element.id).Nodup
        have := hin'
        rw [hEQ, List.map_append] at this
        exact List.Nodup.of_append_left this
      · intro p hp
        have hpne := fst_ne_of_mem_mapErase hdn' hp
        have hpd : p ∈ (k, c.nextId) :: c.data := mem_of_mem_mapErase hp
        have hnode : ∃ e, e ∈ (⟨c.nextId, k, v⟩ : Element) :: c.list ∧
            e.id = p.2 ∧ e.key = p.1 := by
          rcases List.mem_cons.mp hpd with hph | hpt
          · exact ⟨⟨c.nextId, k, v⟩, List.mem_cons_self _ _, by rw [hph], by rw [hph]⟩
          · obtain ⟨e, he, hie, hke⟩ := h.handles p hpt
            exact ⟨e, List.mem_cons_of_mem _ he, hie, hke⟩
        obtain ⟨e, he, hie, hke⟩ := hnode
        refine ⟨e, ?_, hie, hke⟩
        rw [hEQ] at he
        rcases List.mem_append.mp he with he | he
        · exact he
        · exfalso
          rw [List.mem_singleton] at he
          rw [he] at hke
          exact hpne hke.symm
      · intro e he
        have he' : e ∈ (⟨c.nextId, k, v⟩ : Element) :: c.list := by
          rw [hEQ]
          exact List.mem_append.mpr (Or.inl he)
        rcases List.mem_cons.mp he' with hh | hh
        · rw [hh]
          exact Nat.lt_succ_self _
        · exact Nat.lt_succ_of_lt (h.idBound e hh)
    · rw [set_eq_of_miss_noevict v hl hcap]
      refine ⟨⟨hdn', hin', ?_, ?_⟩, rfl⟩
      · intro p hp
        rcases List.mem_cons.mp hp with hph | hpt
        · exact ⟨⟨c.nextId, k, v⟩, List.mem_cons_self _ _, by rw [hph], by rw [hph]⟩
        · obtain ⟨e, he, hie, hke⟩ := h.handles p hpt
          exact ⟨e, List.mem_cons_of_mem _ he, hie, hke⟩
      · intro e he
        rcases List.mem_cons.mp he with hh | hh
        · rw [hh]
          exact Nat.lt_succ_self _
        · exact Nat.lt_succ_of_lt (h.idBound e hh)

theorem invS_NewSimple (capacity : Int) : InvS (NewSimple capacity) := by
  constructor <;> simp [NewSimple]

theorem reachableS_invS {c : SimpleCache} (h : ReachableS c) : InvS c := by
  induction h with
  | new capacity => exact invS_NewSimple capacity
  | set key value _ ih => exact (invS_Set ih key value).1
  | get key _ ih => exact (invS_Get ih key).1
  | del key _ ih => exact (invS_Delete ih key).1
  | flush _ ih => exact ih

/-! ### Full coherence: WFS preservation and the abstract key order -/

theorem wfs_lookup_none_iff {c : SimpleCache} (h : WFS c) (k : String) :
    mapLookup c.data k = none ↔ k ∉ c.list.map Element.key := by
  constructor
  · intro hn hc
    obtain ⟨e, he, hke⟩ := List.mem_map.mp hc
    have hcov := h.covers e he
    rw [hke] at hcov
    exact mapLookup_ne_none_of_mem hcov hn
  · intro hn
    cases hl : mapLookup c.data k with
    | none => rfl
    | some i =>
      obtain ⟨e, _, he, _, hke⟩ := invS_handle h.toInvS hl
      exact absurd (List.mem_map.mpr ⟨e, he, hke⟩) hn

theorem nodup_length_eq_of_mem_iff {l₁ l₂ : List String}
    (h₁ : l₁.Nodup) (h₂ : l₂.Nodup) (h : ∀ x, x ∈ l₁ ↔ x ∈ l₂) :
    l₁.length = l₂.length := by
  rw [← List.toFinset_card_of_nodup h₁, ← List.toFinset_card_of_nodup h₂]
  congr 1
  ext x
  simp [h x]

theorem wfs_len_eq {c : SimpleCache} (h : WFS c) : c.data.length = c.list.length := by
  have := nodup_length_eq_of_mem_iff h.dataNodup h.keysNodup (fun x => by
    constructor
    · intro hx
      obtain ⟨p, hp, hpk⟩ := List.mem_map.mp hx
      obtain ⟨e, he, _, hke⟩ := h.handles p hp
      exact List.mem_map.mpr ⟨e, he, by rw [hke, hpk]⟩
    · intro hx
      obtain ⟨e, he, hke⟩ := List.mem_map.mp hx
      have hcov := h.covers e he
      exact List.mem_map.mpr ⟨(e.key, e.id), hcov, hke⟩)
  calc c.data.length = (c.data.map Prod.fst).length := (List.length_map _ _).symm
    _ = (c.list.map Element.key).length := this
    _ = c.list.length := List.length_map _ _

theorem wfs_moveFront {c : SimpleCache} (h : WFS c) {i : Nat} {e x : Element}
    (hf : findElem c.list i = some e) (hxid : x.id = i) (hxkey : x.key = e.key) :
    WFS { c with list := x :: removeElem c.list i } ∧
    (x :: removeElem c.list i).map Element.key
      = e.key :: (c.list.map Element.key).erase e.key := by
  obtain ⟨hel, heid⟩ := findElem_mem hf
  have hkeys : (removeElem c.list i).map Element.key
      = (c.list.map Element.key).erase e.key := by
    rw [← heid]
    exact keys_removeElem h.idsNodup h.keysNodup hel
  have hkeq : (x :: removeElem c.list i).map Element.key
      = e.key :: (c.list.map Element.key).erase e.key := by
    rw [List.map_cons, hxkey, hkeys]
  refine ⟨⟨invS_moveFront h.toInvS hf hxid hxkey, ?_, ?_⟩, hkeq⟩
  · rw [hkeq]
    exact List.nodup_cons.mpr
      ⟨fun hc => ((List.Nodup.mem_erase_iff h.keysNodup).mp hc).1 rfl,
        List.Nodup.erase _ h.keysNodup⟩
  · intro y hy
    rcases List.mem_cons.mp hy with hyx | hyr
    · have hcov := h.covers e hel
      rw [hyx, hxkey, hxid, ← heid]
      exact hcov
    · exact h.covers y (mem_of_mem_removeElem hyr)

theorem wfs_Get {c : SimpleCache} (h : WFS c) (k : String) :
    WFS (c.Get k).2 ∧ (c.Get k).2.data = c.data ∧
    (c.Get k).2.capacity = c.capacity ∧ (c.Get k).2.nextId = c.nextId ∧
    (c.Get k).2.list.map Element.key
      = absApply c.capacity (c.list.map Element.key) (Op.get k) ∧
    ∀ x ∈ (c.Get k).2.list, x ∈ c.list := by
  cases hl : mapLookup c.data k with
  | none =>
    have hmem : k ∉ c.list.map Element.key := (wfs_lookup_none_iff h k).mp hl
    rw [get_eq_of_lookup_none hl]
    exact ⟨h, rfl, rfl, rfl, by simp [absApply, hmem], fun x hx => hx⟩
  | some i =>
    obtain ⟨e, hf, he, hid, hkey⟩ := invS_handle h.toInvS hl
    have hmem : k ∈ c.list.map Element.key := List.mem_map.mpr ⟨e, he, hkey⟩
    obtain ⟨hwf, hkeq⟩ := wfs_moveFront h hf hid rfl
    rw [get_eq_of_found hl hf]
    refine ⟨hwf, rfl, rfl, rfl, ?_, fun x hx => ?_⟩
    · rw [absApply]
      rw [if_pos hmem]
      show (e :: removeElem c.list i).map Element.key = _
      rw [hkeq, hkey]
    · rcases List.mem_cons.mp hx with hx | hx
      · rw [hx]
        exact he
      · exact mem_of_mem_removeElem hx

theorem wfs_NewSimple (capacity : Int) : WFS (NewSimple capacity) := by
  refine ⟨invS_NewSimple capacity, ?_, ?_⟩ <;> simp [NewSimple]

theorem wfs_Set {c : SimpleCache} (h : WFS c) (k : String) (v : GoVal) :
    WFS (c.Set k v) ∧ (c.Set k v).capacity = c.capacity ∧
    (c.Set k v).list.map Element.key
      = absApply c.capacity (c.list.map Element.key) (Op.set k v) ∧
    ∀ x ∈ (c.Set k v).list, x.value = v ∨ x ∈ c.list := by
  cases hl : mapLookup c.data k with
  | some i =>
    obtain ⟨e, hf, he, hid, hkey⟩ := invS_handle h.toInvS hl
    have hmem : k ∈ c.list.map Element.key := List.mem_map.mpr ⟨e, he, hkey⟩
    obtain ⟨hwf, hkeq⟩ :=
      wfs_moveFront h (x := { e with value := v }) hf hid rfl
    have hmv : moveToFrontUpd c.list i v = { e with value := v } :: removeElem c.list i := by
      rw [moveToFrontUpd, hf]
    rw [set_eq_of_hit v hl, hmv]
    refine ⟨hwf, rfl, ?_, fun x hx => ?_⟩
    · show ({ e with value := v } :: removeElem c.list i).map Element.key = _
      rw [absApply, if_pos hmem, hkeq, hkey]
    · rcases List.mem_cons.mp hx with hx | hx
      · exact Or.inl (by rw [hx])
      · exact Or.inr (mem_of_mem_removeElem hx)
  | none =>
    have hmemk : k ∉ c.list.map Element.key := (wfs_lookup_none_iff h k).mp hl
    have hlen : c.data.length = c.list.length := wfs_len_eq h
    have hll : (c.list.map Element.key).length = c.data.length := by
      rw [List.length_map, ← hlen]
    have hinv := (invS_Set h.toInvS k v).1
    by_cases hcap : 0 ≤ c.capacity ∧ c.capacity < ((c.data.length + 1 : Nat) : Int)
    · have hset := set_eq_of_miss_evict v hl hcap
      rw [hset] at hinv ⊢
      have hEQ := cons_eq_dropBack1_append (⟨c.nextId, k, v⟩ : Element) c.list
      have hkeysEQ : (k : String) :: c.list.map Element.key
          = (dropBack1 ⟨c.nextId, k, v⟩ c.list).map Element.key
            ++ [(back1 ⟨c.nextId, k, v⟩ c.list).key] := by
        have := congrArg (List.map Element.key) hEQ
        rw [List.map_append] at this
        exact this
      have hkn' : ((k : String) :: c.list.map Element.key).Nodup :=
        List.nodup_cons.mpr ⟨hmemk, h.keysNodup⟩
      have hknApp := hkn'
      rw [hkeysEQ] at hknApp
      have hdisj := (List.nodup_append.mp hknApp).2.2
      refine ⟨⟨hinv, ?_, ?_⟩, rfl, ?_, fun x hx => ?_⟩
      · exact List.Nodup.of_append_left hknApp
      · intro y hy
        have hy' : y ∈ (⟨c.nextId, k, v⟩ : Element) :: c.list := by
          rw [hEQ]
          exact List.mem_append.mpr (Or.inl hy)
        have hyd : (y.key, y.id) ∈ (k, c.nextId) :: c.data := by
          rcases List.mem_cons.mp hy' with hh | hh
          · rw [hh]
            exact List.mem_cons_self _ _
          · exact List.mem_cons_of_mem _ (h.covers y hh)
        refine mem_mapErase_of_ne hyd ?_
        show y.key ≠ _
        intro hc
        exact hdisj (List.mem_map_of_mem Element.key hy) (by rw [hc]; exact List.mem_singleton.mpr rfl)
      · show (dropBack1 _ _).map Element.key = _
        rw [absApply, if_neg hmemk, if_pos (by rw [hll]; exact hcap)]
        have : ((k : String) :: c.list.map Element.key).dropLast
            = (dropBack1 (⟨c.nextId, k, v⟩ : Element) c.list).map Element.key := by
          rw [hkeysEQ, List.dropLast_concat]
        rw [← this]
      · have hx' : x ∈ (⟨c.nextId, k, v⟩ : Element) :: c.list := by
          rw [hEQ]
          exact List.mem_append.mpr (Or.inl hx)
        rcases List.mem_cons.mp hx' with hh | hh
        · exact Or.inl (by rw [hh])
        · exact Or.inr hh
    · have hset := set_eq_of_miss_noevict v hl hcap
      rw [hset] at hinv ⊢
      refine ⟨⟨hinv, ?_, ?_⟩, rfl, ?_, fun x hx => ?_⟩
      · show ((k : String) :: c.list.map Element.key).Nodup
        exact List.nodup_cons.mpr ⟨hmemk, h.keysNodup⟩
      · intro y hy
        rcases List.mem_cons.mp hy with hh | hh
        · rw [hh]
          exact List.mem_cons_self _ _
        · exact List.mem_cons_of_mem _ (h.covers y hh)
      · show (k : String) :: c.list.map Element.key = _
        rw [absApply, if_neg hmemk, if_neg (by rw [hll]; exact hcap)]
      · rcases List.mem_cons.mp hx with hh | hh
        · exact Or.inl (by rw [hh])
        · exact Or.inr hh

/-! ### Run-level simulation and abstract length bounds -/

theorem runOps_cons (c : SimpleCache) (op : Op) (rest : List Op) :
    c.runOps (op :: rest) = (c.applyOp op).runOps rest := rfl

theorem applyOp_set (c : SimpleCache) (k : String) (v : GoVal) :
    c.applyOp (Op.set k v) = c.Set k v := rfl

theorem applyOp_get (c : SimpleCache) (k : String) :
    c.applyOp (Op.get k) = (c.Get k).2 := rfl

theorem absRun_cons (cap : Int) (l : List String) (op : Op) (rest : List Op) :
    absRun cap l (op :: rest) = absRun cap (absApply cap l op) rest := rfl

theorem wfs_runOps {c : SimpleCache} (h : WFS c) (ops : List Op) (P : GoVal → Prop)
    (hP : ∀ x ∈ c.list, P x.value) (hPops : ∀ v ∈ setValsOf ops, P v) :
    WFS (c.runOps ops) ∧ (c.runOps ops).capacity = c.capacity ∧
    (c.runOps ops).list.map Element.key
      = absRun c.capacity (c.list.map Element.key) ops ∧
    ∀ x ∈ (c.runOps ops).list, P x.value := by
  induction ops generalizing c with
  | nil => exact ⟨h, rfl, rfl, fun x hx => hP x hx⟩
  | cons op rest ih =>
    cases op with
    | set k v =>
      rw [runOps_cons, applyOp_set, absRun_cons]
      obtain ⟨hwf, hcap, hkeys, hvals⟩ := wfs_Set h k v
      have hP' : ∀ x ∈ (c.Set k v).list, P x.value := by
        intro x hx
        rcases hvals x hx with hv | hv
        · rw [hv]
          exact hPops v (by simp [setValsOf])
        · exact hP x hv
      have hPops' : ∀ v' ∈ setValsOf rest, P v' := fun v' hv' =>
        hPops v' (by simp [setValsOf, hv'])
      obtain ⟨hwf2, hcap2, hkeys2, hvals2⟩ := ih hwf hP' hPops'
      exact ⟨hwf2, hcap2.trans hcap, by rw [hkeys2, hcap, hkeys], hvals2⟩
    | get k =>
      rw [runOps_cons, applyOp_get, absRun_cons]
      obtain ⟨hwf, _, hcap, _, hkeys, hsub⟩ := wfs_Get h k
      have hP' : ∀ x ∈ (c.Get k).2.list, P x.value := fun x hx => hP x (hsub x hx)
      have hPops' : ∀ v' ∈ setValsOf rest, P v' := fun v' hv' =>
        hPops v' (by simp [setValsOf, hv'])
      obtain ⟨hwf2, hcap2, hkeys2, hvals2⟩ := ih hwf hP' hPops'
      exact ⟨hwf2, hcap2.trans hcap, by rw [hkeys2, hcap, hkeys], hvals2⟩

theorem runSets_eq_runOps (c : SimpleCache) (sets : List (String × GoVal)) :
    c.runSets sets = c.runOps (sets.map (fun p => Op.set p.1 p.2)) := by
  rw [SimpleCache.runSets, SimpleCache.runOps, List.foldl_map]
  rfl

theorem absApply_length_le {cap : Int} (hcap : 0 ≤ cap) {l : List String}
    (hl : l.length ≤ cap.toNat) (op : Op) :
    (absApply cap l op).length ≤ cap.toNat := by
  cases op with
  | get k =>
    rw [absApply]
    by_cases hm : k ∈ l
    · rw [if_pos hm, List.length_cons, List.length_erase_of_mem hm]
      have := List.length_pos_of_mem hm
      omega
    · rw [if_neg hm]
      exact hl
  | set k v =>
    rw [absApply]
    by_cases hm : k ∈ l
    · rw [if_pos hm, List.length_cons, List.length_erase_of_mem hm]
      have := List.length_pos_of_mem hm
      omega
    · rw [if_neg hm]
      by_cases hc : 0 ≤ cap ∧ cap < ((l.length + 1 : Nat) : Int)
      · rw [if_pos hc, List.length_dropLast, List.length_cons]
        omega
      · rw [if_neg hc, List.length_cons]
        have hle : ((l.length + 1 : Nat) : Int) ≤ cap :=
          not_lt.mp (fun hlt => hc ⟨hcap, hlt⟩)
        omega

theorem absRun_length_le {cap : Int} (hcap : 0 ≤ cap) {l : List String}
    (hl : l.length ≤ cap.toNat) (ops : List Op) :
    (absRun cap l ops).length ≤ cap.toNat := by
  induction ops generalizing l with
  | nil => exact hl
  | cons op rest ih => exact ih (absApply_length_le hcap hl op)

theorem absApply_nodup {cap : Int} {l : List String} (h : l.Nodup) (op : Op) :
    (absApply cap l op).Nodup := by
  have hmf : ∀ k : String, k ∈ l → (k :: l.erase k).Nodup := fun k hk =>
    List.nodup_cons.mpr
      ⟨fun hc => ((List.Nodup.mem_erase_iff h).mp hc).1 rfl, List.Nodup.erase _ h⟩
  cases op with
  | get k =>
    rw [absApply]
    by_cases hm : k ∈ l
    · rw [if_pos hm]
      exact hmf k hm
    · rw [if_neg hm]
      exact h
  | set k v =>
    rw [absApply]
    by_cases hm : k ∈ l
    · rw [if_pos hm]
      exact hmf k hm
    · rw [if_neg hm]
      by_cases hc : 0 ≤ cap ∧ cap < ((l.length + 1 : Nat) : Int)
      · rw [if_pos hc]
        exact List.Nodup.sublist (List.dropLast_sublist _) (List.nodup_cons.mpr ⟨hm, h⟩)
      · rw [if_neg hc]
        exact List.nodup_cons.mpr ⟨hm, h⟩

/-! ### The write-back cache acts on its LRU part exactly like the simple cache -/

theorem setBody_eq_of_hit {c : Cache} {k : String} {i : Nat} (v : GoVal)
    (hl : mapLookup c.data k = some i) :
    c.setBody k v =
      { c with
        list := moveToFrontUpd c.list i v,
        dirtyList := c.dirtyList
          ++ [{ modified := true, removed := false, key := k, value := v }] } := by
  simp [Cache.setBody, hl]

theorem setBody_eq_of_miss_evict {c : Cache} {k : String} (v : GoVal)
    (hl : mapLookup c.data k = none)
    (hcap : 0 ≤ c.capacity ∧ c.capacity < ((c.data.length + 1 : Nat) : Int)) :
    c.setBody k v =
      { c with
        data := mapErase ((k, c.nextId) :: c.data)
          (back1 ⟨c.nextId, k, v⟩ c.list).key,
        list := dropBack1 ⟨c.nextId, k, v⟩ c.list,
        dirtyList := c.dirtyList
          ++ [{ modified := true, removed := false, key := k, value := v }],
        nextId := c.nextId + 1 } := by
  simp only [Cache.setBody, hl, List.length_cons]
  rw [if_pos hcap]

theorem setBody_eq_of_miss_noevict {c : Cache} {k : String} (v : GoVal)
    (hl : mapLookup c.data k = none)
    (hcap : ¬(0 ≤ c.capacity ∧ c.capacity < ((c.data.length + 1 : Nat) : Int))) :
    c.setBody k v =
      { c with
        data := (k, c.nextId) :: c.data,
        list := (⟨c.nextId, k, v⟩ : Element) :: c.list,
        dirtyList := c.dirtyList
          ++ [{ modified := true, removed := false, key := k, value := v }],
        nextId := c.nextId + 1 } := by
  simp only [Cache.setBody, hl, List.length_cons]
  rw [if_neg hcap]

theorem toSimple_setBody (c : Cache) (k : String) (v : GoVal) :
    (c.setBody k v).toSimple = c.toSimple.Set k v ∧
    (c.setBody k v).dirtyList = c.dirtyList
      ++ [{ modified := true, removed := false, key := k, value := v }] ∧
    (c.setBody k v).maxNrDirty = c.maxNrDirty ∧
    (c.setBody k v).flushPeriod = c.flushPeriod := by
  cases hl : mapLookup c.data k with
  | some i =>
    have hl' : mapLookup c.toSimple.data k = some i := hl
    rw [setBody_eq_of_hit v hl, set_eq_of_hit v hl']
    exact ⟨rfl, rfl, rfl, rfl⟩
  | none =>
    have hl' : mapLookup c.toSimple.data k = none := hl
    by_cases hcap : 0 ≤ c.capacity ∧ c.capacity < ((c.data.length + 1 : Nat) : Int)
    · rw [setBody_eq_of_miss_evict v hl hcap, set_eq_of_miss_evict v hl' hcap]
      exact ⟨rfl, rfl, rfl, rfl⟩
    · rw [setBody_eq_of_miss_noevict v hl hcap, set_eq_of_miss_noevict v hl' hcap]
      exact ⟨rfl, rfl, rfl, rfl⟩

theorem toSimple_checkAndFlush (c : Cache) :
    (c.checkAndFlush).1.toSimple = c.toSimple ∧
    (c.checkAndFlush).1.maxNrDirty = c.maxNrDirty ∧
    (c.checkAndFlush).1.flushPeriod = c.flushPeriod := by
  rw [Cache.checkAndFlush]
  by_cases hc : 0 ≤ c.maxNrDirty ∧ c.maxNrDirty ≤ (c.dirtyList.length : Int)
  · rw [if_pos hc]
    exact ⟨rfl, rfl, rfl⟩
  · rw [if_neg hc]
    exact ⟨rfl, rfl, rfl⟩

theorem toSimple_Set (c : Cache) (k : String) (v : GoVal) :
    ((c.Set k v).1).toSimple = c.toSimple.Set k v ∧
    ((c.Set k v).1).maxNrDirty = c.maxNrDirty ∧
    ((c.Set k v).1).flushPeriod = c.flushPeriod := by
  rw [Cache.Set]
  obtain ⟨h1, _, h3, h4⟩ := toSimple_setBody c k v
  obtain ⟨g1, g2, g3⟩ := toSimple_checkAndFlush (c.setBody k v)
  exact ⟨g1.trans h1, g2.trans h3, g3.trans h4⟩

theorem toSimple_Get (c : Cache) (k : String) :
    (c.Get k).1 = (c.toSimple.Get k).1 ∧
    (c.Get k).2.toSimple = (c.toSimple.Get k).2 ∧
    (c.Get k).2.dirtyList = c.dirtyList ∧
    (c.Get k).2.maxNrDirty = c.maxNrDirty ∧
    (c.Get k).2.flushPeriod = c.flushPeriod := by
  cases hl : mapLookup c.data k with
  | none =>
    have hl' : mapLookup c.toSimple.data k = none := hl
    simp [Cache.Get, SimpleCache.Get, Cache.toSimple, hl, hl']
  | some i =>
    have hl' : mapLookup c.toSimple.data k = some i := hl
    cases hf : findElem c.list i with
    | none =>
      have hf' : findElem c.toSimple.list i = none := hf
      simp [Cache.Get, SimpleCache.Get, Cache.toSimple, hl, hl', hf, hf']
    | some e =>
      have hf' : findElem c.toSimple.list i = some e := hf
      simp [Cache.Get, SimpleCache.Get, Cache.toSimple, hl, hl', hf, hf']

theorem toSimple_Delete (c : Cache) (k : String) :
    (c.Delete k).1 = (c.toSimple.Delete k).1 ∧
    (c.Delete k).2.toSimple = (c.toSimple.Delete k).2 ∧
    (c.Delete k).2.dirtyList = c.dirtyList
      ++ [{ modified := false, removed := true, key := k, value := GoVal.nil }] ∧
    (c.Delete k).2.maxNrDirty = c.maxNrDirty ∧
    (c.Delete k).2.flushPeriod = c.flushPeriod := by
  cases hl : mapLookup c.data k with
  | none =>
    have hl' : mapLookup c.toSimple.data k = none := hl
    simp [Cache.Delete, SimpleCache.Delete, Cache.toSimple, hl, hl']
  | some i =>
    have hl' : mapLookup c.toSimple.data k = some i := hl
    cases hf : findElem c.list i with
    | none =>
      have hf' : findElem c.toSimple.list i = none := hf
      simp [Cache.Delete, SimpleCache.Delete, Cache.toSimple, hl, hl', hf, hf']
    | some e =>
      have hf' : findElem c.toSimple.list i = some e := hf
      simp [Cache.Delete, SimpleCache.Delete, Cache.toSimple, hl, hl', hf, hf']

theorem toSimple_Flush (c : Cache) :
    (c.Flush).1.toSimple = c.toSimple ∧
    (c.Flush).1.dirtyList = [] ∧
    (c.Flush).1.maxNrDirty = c.maxNrDirty ∧
    (c.Flush).1.flushPeriod = c.flushPeriod ∧
    (c.Flush).2 = dirtyCalls c.dirtyList :=
  ⟨rfl, rfl, rfl, rfl, rfl⟩

theorem New_ok {capacity maxNrDirty flushPeriod : Int} {u : Unit} {c : Cache}
    (h : New capacity maxNrDirty flushPeriod (some u) = Except.ok c) :
    c.toSimple = NewSimple capacity ∧ c.dirtyList = [] ∧
    c.maxNrDirty = maxNrDirty ∧ c.flushPeriod = flushPeriod := by
  rw [New] at h
  cases h
  refine ⟨?_, rfl, rfl, rfl⟩
  rw [NewSimple]
  rfl

theorem invC {c : Cache} (h : ReachableC c) : InvS c.toSimple := by
  induction h with
  | new capacity maxNrDirty flushPeriod u hnew =>
    rw [(New_ok hnew).1]
    exact invS_NewSimple capacity
  | set key value _ ih =>
    rw [(toSimple_Set _ key value).1]
    exact (invS_Set ih key value).1
  | get key _ ih =>
    rw [(toSimple_Get _ key).2.1]
    exact (invS_Get ih key).1
  | del key _ ih =>
    rw [(toSimple_Delete _ key).2.1]
    exact (invS_Delete ih key).1
  | flush _ ih =>
    rw [(toSimple_Flush _).1]
    exact ih

/-! ### Dirty-queue and flush facts -/

theorem dirtyCalls_append (dl : List dirtyElement) (de : dirtyElement) :
    dirtyCalls (dl ++ [de])
      = dirtyCalls dl ++ (if de.removed then [SinkCall.remove de.key]
          else if de.modified then [SinkCall.add de.key de.value] else []) := by
  induction dl with
  | nil =>
    by_cases hr : de.removed
    · simp [dirtyCalls, hr]
    · by_cases hm : de.modified <;> simp [dirtyCalls, hr, hm]
  | cons d rest ih =>
    simp only [List.cons_append, dirtyCalls]
    by_cases hr : d.removed
    · simp [hr, ih]
    · by_cases hm : d.modified <;> simp [hr, hm, ih]

theorem delete_fst_of_found {c : Cache} {k : String} {i : Nat} {e : Element}
    (hl : mapLookup c.data k = some i) (hf : findElem c.list i = some e) :
    (c.Delete k).1 = e.value := by
  simp [Cache.Delete, hl, hf]

theorem delete_fst_of_none {c : Cache} {k : String}
    (hl : mapLookup c.data k = none) : (c.Delete k).1 = GoVal.nil := by
  simp [Cache.Delete, hl]

/-! ### Claim theorems -/

/-- C10: on the write-back cache, `Get` leaves the dirty queue exactly
unchanged — a pure read never creates a pending mutation and emits no sink
calls (its return type carries none), even though it reorders the recency
list. -/
theorem C10_get_leaves_dirty_queue_unchanged (c : Cache) (k : String) :
    (c.Get k).2.dirtyList = c.dirtyList :=
  (toSimple_Get c k).2.2.1

/-- C2 (code bug): `Delete` removes the key from the lookup index but never
calls `list.Remove`, so the recency list keeps the stale node and the
claimed invariant `|Index| = |List|` fails: after one `Set` and one
`Delete` the index is empty while the list still has one node.  The
corruption is observable: with capacity 3, the trace
`Set a; Set b; Delete a; Set c; Set d; Set e` ends with `Len() = 4 > 3`,
because the eviction removes the stale `a` node and its `delete` on the
index is a no-op. -/
theorem C2_delete_breaks_index_list_invariant :
    ((((NewSimple 5).Set "a" (GoVal.str "1")).Delete "a").2.data.length = 0 ∧
      ((((NewSimple 5)).Set "a" (GoVal.str "1")).Delete "a").2.list.length = 1) ∧
    (((((((NewSimple 3).Set "a" (GoVal.str "1")).Set "b"
        (GoVal.str "2")).Delete "a").2.Set "c" (GoVal.str "3")).Set "d"
        (GoVal.str "4")).Set "e" (GoVal.str "5")).Len = 4 ∧
    (((((((NewSimple 3).Set "a" (GoVal.str "1")).Set "b"
        (GoVal.str "2")).Delete "a").2.Set "c" (GoVal.str "3")).Set "d"
        (GoVal.str "4")).Set "e" (GoVal.str "5")).capacity = 3 := by
  decide

/-- C4: `Flush` replays the dirty queue against the sink in exactly append
order, calling `Add` for each upsert record and `Remove` for each removal
record; consequently the pending sequence `Set(k,"1"); Delete(k);
Set(k,"2")` flushed together calls `Add k "1"; Remove k; Add k "2"` and
leaves the test sink with `k` mapped to `"2"`. -/
theorem C4_flush_in_order (c : Cache) (dl : List dirtyElement) (de : dirtyElement) :
    (c.Flush).2 = dirtyCalls c.dirtyList ∧
    (c.Flush).1.dirtyList = [] ∧
    dirtyCalls (dl ++ [de])
      = dirtyCalls dl ++ (if de.removed then [SinkCall.remove de.key]
          else if de.modified then [SinkCall.add de.key de.value] else []) ∧
    (New 100 (-1) 0 (some ())).map (fun c0 =>
        ((((c0.Set "k" (GoVal.str "1")).1.Delete "k").2.Set "k"
          (GoVal.str "2")).1.Flush).2)
      = Except.ok [SinkCall.add "k" (GoVal.str "1"), SinkCall.remove "k",
          SinkCall.add "k" (GoVal.str "2")] ∧
    (New 100 (-1) 0 (some ())).map (fun c0 =>
        mapLookup (memFlusherRun []
          ((((c0.Set "k" (GoVal.str "1")).1.Delete "k").2.Set "k"
            (GoVal.str "2")).1.Flush).2) "k")
      = Except.ok (some (GoVal.str "2")) :=
  ⟨rfl, rfl, dirtyCalls_append dl de, by rfl, by rfl⟩

/-- C5 counterexample: `Delete` never triggers the threshold flush.  With
`maxNrDirty = 3`, three `Delete` calls leave the dirty queue at length 3,
which is not shorter than `maxNrDirty` even though every one of these
mutating calls returned (and no flush ran — `Delete` contains no
`checkAndFlush`). -/
theorem C5_delete_does_not_flush :
    (New 5 3 0 (some ())).map (fun c0 =>
        (((((c0.Delete "a").2).Delete "b").2.Delete "c").2.dirtyList.length,
          ((((c0.Delete "a").2).Delete "b").2.Delete "c").2.maxNrDirty))
      = Except.ok (3, 3) := by
  rfl

/-- C5 (amended): only `Set` checks the threshold.  A `Set` whose appended
record brings the queue to length at least a non-negative `maxNrDirty`
triggers an immediate flush that empties the queue and replays it; any
other `Set` (threshold not reached, or `maxNrDirty < 0`) just appends its
upsert record and emits nothing; `Delete` always just appends its removal
record and never flushes. -/
theorem C5_amended_only_set_triggers_flush :
    (∀ (c : Cache) (k : String) (v : GoVal),
      0 ≤ c.maxNrDirty → c.maxNrDirty ≤ ((c.dirtyList.length + 1 : Nat) : Int) →
        (c.Set k v).1.dirtyList = [] ∧
        (c.Set k v).2 = dirtyCalls (c.dirtyList
          ++ [{ modified := true, removed := false, key := k, value := v }])) ∧
    (∀ (c : Cache) (k : String) (v : GoVal),
      ¬(0 ≤ c.maxNrDirty ∧ c.maxNrDirty ≤ ((c.dirtyList.length + 1 : Nat) : Int)) →
        (c.Set k v).1.dirtyList = c.dirtyList
          ++ [{ modified := true, removed := false, key := k, value := v }] ∧
        (c.Set k v).2 = []) ∧
    (∀ (c : Cache) (k : String),
      (c.Delete k).2.dirtyList = c.dirtyList
        ++ [{ modified := false, removed := true, key := k, value := GoVal.nil }]) := by
  obtain hsb := fun (c : Cache) (k : String) (v : GoVal) => toSimple_setBody c k v
  refine ⟨fun c k v h0 hle => ?_, fun c k v hneg => ?_, fun c k => (toSimple_Delete c k).2.2.1⟩
  · obtain ⟨_, hdl, hmd, _⟩ := hsb c k v
    have hcond : 0 ≤ (c.setBody k v).maxNrDirty ∧
        (c.setBody k v).maxNrDirty ≤ ((c.setBody k v).dirtyList.length : Int) := by
      rw [hmd, hdl]
      simpa using ⟨h0, hle⟩
    rw [Cache.Set, Cache.checkAndFlush, if_pos hcond]
    exact ⟨rfl, by rw [Cache.Flush, hdl]⟩
  · obtain ⟨_, hdl, hmd, _⟩ := hsb c k v
    have hcond : ¬(0 ≤ (c.setBody k v).maxNrDirty ∧
        (c.setBody k v).maxNrDirty ≤ ((c.setBody k v).dirtyList.length : Int)) := by
      rw [hmd, hdl]
      simpa using hneg
    rw [Cache.Set, Cache.checkAndFlush, if_neg hcond]
    exact ⟨hdl, rfl⟩

/-- Witness for C5's amended statement at a concrete input: a fresh cache
with threshold 1; the first `Set` reaches the threshold, flushes, and
leaves the queue empty, while a `Delete` on the same fresh cache leaves
its removal record queued. -/
theorem C5_amended_witness :
    ((freshCache 1).Set "x" (GoVal.str "1")).1.dirtyList = []
    ∧ ((freshCache 1).Delete "x").2.dirtyList
      = [{ modified := false, removed := true, key := "x", value := GoVal.nil }] := by
  refine ⟨(C5_amended_only_set_triggers_flush.1 (freshCache 1) "x" (GoVal.str "1")
    (by decide) (by decide)).1, ?_⟩
  rw [C5_amended_only_set_triggers_flush.2.2 (freshCache 1) "x"]
  decide

/-- C9: construction misuse is the only panic: `New` fails (Go panics)
exactly on a nil flusher — with any non-nil flusher it returns a cache —
and no other operation can abort: the only other potential panic site in
the source is dereferencing `list.Back()` during eviction, which `Set`
reaches only right after a `PushFront`, where the list is a cons cell and
`Back()` provably yields an element; the remaining type assertions cannot
fail in this typed embedding. -/
theorem C9_only_new_panics :
    (∀ capacity maxNrDirty flushPeriod : Int,
      New capacity maxNrDirty flushPeriod none
        = Except.error "Should use NewSimple") ∧
    (∀ (capacity maxNrDirty flushPeriod : Int) (u : Unit),
      ∃ c : Cache, New capacity maxNrDirty flushPeriod (some u) = Except.ok c) ∧
    (∀ (e : Element) (l : List Element), backElem (e :: l) = some (back1 e l)) :=
  ⟨fun _ _ _ => rfl, fun _ _ _ _ => ⟨_, rfl⟩, fun _ _ => rfl⟩

/-- C8: `Delete` on the write-back cache appends exactly one removal
record to the dirty queue whether or not the key is present, and returns
the prior value on a hit (the value of the node its index handle points
at) and `nil` on a miss. -/
theorem C8_delete_unconditional_dirty_record (c : Cache) (k : String) :
    (c.Delete k).2.dirtyList = c.dirtyList
      ++ [{ modified := false, removed := true, key := k, value := GoVal.nil }] ∧
    (mapLookup c.data k = none → (c.Delete k).1 = GoVal.nil) ∧
    (ReachableC c → ∀ i e, mapLookup c.data k = some i → e ∈ c.list → e.id = i →
      (c.Delete k).1 = e.value) := by
  refine ⟨(toSimple_Delete c k).2.2.1, fun hl => delete_fst_of_none hl, ?_⟩
  intro hr i e hl he hid
  have hinv : InvS c.toSimple := invC hr
  obtain ⟨e', hf', he', hid', hkey'⟩ := invS_handle hinv (k := k) (i := i) hl
  have hee : e' = e := eq_of_mem_of_id_eq hinv.idsNodup he' he (by rw [hid', hid])
  rw [← hee]
  exact delete_fst_of_found hl hf'

/-- Witness for C8 at a concrete input: after `Set "a" "1"` on a fresh
write-back cache, deleting the absent `"b"` returns `nil` and deleting the
present `"a"` returns its stored value; both deletes append a removal
record. -/
theorem C8_witness :
    (((freshCache (-1)).Set "a" (GoVal.str "1")).1.Delete "b").1 = GoVal.nil ∧
    (((freshCache (-1)).Set "a" (GoVal.str "1")).1.Delete "a").1 = GoVal.str "1" ∧
    (((freshCache (-1)).Set "a" (GoVal.str "1")).1.Delete "a").2.dirtyList.length = 2 := by
  have hreach : ReachableC ((freshCache (-1)).Set "a" (GoVal.str "1")).1 :=
    ReachableC.set "a" (GoVal.str "1") (ReachableC.new 5 (-1) 0 () rfl)
  refine ⟨(C8_delete_unconditional_dirty_record _ "b").2.1 (by decide), ?_, ?_⟩
  · exact (C8_delete_unconditional_dirty_record _ "a").2.2 hreach 0
      ⟨0, "a", GoVal.str "1"⟩ (by decide) (by decide) rfl
  · rw [(C8_delete_unconditional_dirty_record _ "a").1]
    decide

/-- C7 counterexample: the absent-key outcome is Go `nil`, and a caller
can store `nil` itself (Go `interface{}` admits it): after `Set "k" nil`
the key is present — the index maps it to node 0 — yet `Get "k"` returns
exactly the same `nil` that a miss returns, so the "not found" outcome is
not distinct from every storable value. -/
theorem C7_nil_value_indistinguishable_from_miss :
    (((NewSimple 5).Set "k" GoVal.nil).Get "k").1 = GoVal.nil ∧
    ((NewSimple 5).Get "missing").1 = GoVal.nil ∧
    mapLookup ((NewSimple 5).Set "k" GoVal.nil).data "k" = some 0 := by
  decide

/-- C7 (amended): `Get` and `Delete` return `nil` for an absent key, and
on a hit `Get` returns the stored value, so the miss outcome is distinct
from every non-`nil` stored value; a stored `nil`, however, is returned as
`nil` and is indistinguishable from the miss outcome. -/
theorem C7_amended_nil_sentinel (c : SimpleCache) (k : String)
    (h : ReachableS c) :
    (mapLookup c.data k = none →
      (c.Get k).1 = GoVal.nil ∧ (c.Delete k).1 = GoVal.nil) ∧
    (∀ i e, mapLookup c.data k = some i → e ∈ c.list → e.id = i →
      (c.Get k).1 = e.value ∧ (e.value ≠ GoVal.nil → (c.Get k).1 ≠ GoVal.nil)) := by
  have hinv := reachableS_invS h
  constructor
  · intro hl
    constructor
    · rw [get_eq_of_lookup_none hl]
    · simp [SimpleCache.Delete, hl]
  · intro i e hl he hid
    obtain ⟨e', hf', he', hid', hkey'⟩ := invS_handle hinv hl
    have hee : e' = e := eq_of_mem_of_id_eq hinv.idsNodup he' he (by rw [hid', hid])
    rw [get_eq_of_found hl hf', ← hee]
    exact ⟨rfl, fun hne hc => hne hc⟩

/-- Witness for C7's amended statement at a concrete input: a stored
non-nil value is returned as itself (and is not `nil`), while a miss
returns `nil`. -/
theorem C7_witness :
    ((((NewSimple 5).Set "a" (GoVal.str "1")).Get "a").1 = GoVal.str "1" ∧
      (((NewSimple 5).Set "a" (GoVal.str "1")).Get "a").1 ≠ GoVal.nil) ∧
    (((NewSimple 5).Set "a" (GoVal.str "1")).Get "b").1 = GoVal.nil := by
  have hreach : ReachableS ((NewSimple 5).Set "a" (GoVal.str "1")) :=
    ReachableS.set "a" (GoVal.str "1") (ReachableS.new 5)
  obtain ⟨hv, hnn⟩ := (C7_amended_nil_sentinel _ "a" hreach).2 0
    ⟨0, "a", GoVal.str "1"⟩ (by decide) (by decide) rfl
  exact ⟨⟨by rw [hv], hnn (by decide)⟩,
    ((C7_amended_nil_sentinel _ "b" hreach).1 (by decide)).1⟩

/-! ### Capacity bound (C6) and the negative-capacity clamp (C1) -/

theorem toSimple_runSets (c : Cache) (sets : List (String × GoVal)) :
    (c.runSets sets).toSimple = c.toSimple.runSets sets := by
  induction sets generalizing c with
  | nil => rfl
  | cons p rest ih =>
    have h1 : c.runSets (p :: rest) = ((c.Set p.1 p.2).1).runSets rest := rfl
    have h2 : c.toSimple.runSets (p :: rest)
        = (c.toSimple.Set p.1 p.2).runSets rest := rfl
    rw [h1, h2, ih, (toSimple_Set c p.1 p.2).1]

/-- C6: starting from a fresh cache with non-negative capacity, every
sequence of `Set` calls keeps `Len() ≤ capacity`, on both the plain and
the write-back variant.  The sequence is universally quantified, so the
bound holds after each call of any such sequence. -/
theorem C6_len_le_capacity (capacity : Int) (h : 0 ≤ capacity)
    (sets : List (String × GoVal)) :
    ((NewSimple capacity).runSets sets).Len ≤ capacity.toNat ∧
    ∀ (maxNrDirty flushPeriod : Int) (c : Cache),
      New capacity maxNrDirty flushPeriod (some ()) = Except.ok c →
      (c.runSets sets).Len ≤ capacity.toNat := by
  have hcapfield : (NewSimple capacity).capacity = capacity := by
    rw [NewSimple]
    simp [not_lt.mpr h]
  have hsimple : ((NewSimple capacity).runSets sets).Len ≤ capacity.toNat := by
    rw [runSets_eq_runOps]
    obtain ⟨hwf, _, hkeys, _⟩ := wfs_runOps (wfs_NewSimple capacity)
      (sets.map (fun p => Op.set p.1 p.2)) (fun _ => True)
      (fun x hx => trivial) (fun v hv => trivial)
    have hlen : ((NewSimple capacity).runOps (sets.map (fun p => Op.set p.1 p.2))).Len
        = (((NewSimple capacity).runOps
            (sets.map (fun p => Op.set p.1 p.2))).list.map Element.key).length := by
      rw [SimpleCache.Len, wfs_len_eq hwf, List.length_map]
    rw [hlen, hkeys, hcapfield]
    exact absRun_length_le h (by simp [NewSimple]) _
  refine ⟨hsimple, fun maxNrDirty flushPeriod c hnew => ?_⟩
  have hts : (c.runSets sets).toSimple = (NewSimple capacity).runSets sets := by
    rw [toSimple_runSets, (New_ok hnew).1]
  have hlen : (c.runSets sets).Len = ((c.runSets sets).toSimple).Len := rfl
  rw [hlen, hts]
  exact hsimple

/-- Witness for C6 at a concrete input: capacity 5, two inserted keys,
both variants. -/
theorem C6_witness :
    ((NewSimple 5).runSets [("a", GoVal.str "1"), ("b", GoVal.str "2")]).Len ≤ 5 ∧
    ((freshCache 3).runSets [("a", GoVal.str "1"), ("b", GoVal.str "2")]).Len ≤ 5 := by
  have h := C6_len_le_capacity 5 (by decide)
    [("a", GoVal.str "1"), ("b", GoVal.str "2")]
  exact ⟨h.1, h.2 3 0 (freshCache 3) rfl⟩

theorem absRun_distinct_sets_length {cap : Int} (hcap : 0 ≤ cap) (v : GoVal) :
    ∀ (ks : List String) (l : List String), ks.Nodup → (∀ k ∈ ks, k ∉ l) →
      l.length ≤ cap.toNat →
      (absRun cap l (ks.map (fun k => Op.set k v))).length
        = min (l.length + ks.length) cap.toNat := by
  intro ks
  induction ks with
  | nil =>
    intro l _ _ hl
    simp only [List.map_nil, absRun, List.foldl_nil, List.length_nil, Nat.add_zero]
    omega
  | cons k rest ih =>
    intro l hnd hfresh hl
    rw [List.map_cons, absRun_cons]
    have hknotl : k ∉ l := hfresh k (List.mem_cons_self k rest)
    by_cases hc : 0 ≤ cap ∧ cap < ((l.length + 1 : Nat) : Int)
    · have habs : absApply cap l (Op.set k v) = (k :: l).dropLast := by
        rw [absApply, if_neg hknotl, if_pos hc]
      have hlen' : ((k :: l).dropLast).length = l.length := by
        rw [List.length_dropLast, List.length_cons]
        omega
      have hfresh' : ∀ k' ∈ rest, k' ∉ (k :: l).dropLast := by
        intro k' hk' hmem
        have hmem' : k' ∈ k :: l := (List.dropLast_sublist _).subset hmem
        rcases List.mem_cons.mp hmem' with hh | hh
        · rw [hh] at hk'
          exact (List.nodup_cons.mp hnd).1 hk'
        · exact hfresh k' (List.mem_cons_of_mem _ hk') hh
      have hceil : l.length = cap.toNat := by
        have hc2 := hc.2
        omega
      rw [habs, ih ((k :: l).dropLast) (List.nodup_cons.mp hnd).2 hfresh'
        (by rw [hlen']; omega), hlen', List.length_cons]
      omega
    · have habs : absApply cap l (Op.set k v) = k :: l := by
        rw [absApply, if_neg hknotl, if_neg hc]
      have hle : ((l.length + 1 : Nat) : Int) ≤ cap :=
        not_lt.mp (fun hlt => hc ⟨hcap, hlt⟩)
      have hlen1 : (k :: l).length ≤ cap.toNat := by
        rw [List.length_cons]
        omega
      have hfresh' : ∀ k' ∈ rest, k' ∉ k :: l := by
        intro k' hk' hmem
        rcases List.mem_cons.mp hmem with hh | hh
        · rw [hh] at hk'
          exact (List.nodup_cons.mp hnd).1 hk'
        · exact hfresh k' (List.mem_cons_of_mem _ hk') hh
      rw [habs, ih (k :: l) (List.nodup_cons.mp hnd).2 hfresh' hlen1,
        List.length_cons, List.length_cons]
      omega

theorem natKey_length (n : Nat) : (natKey n).length = n := by
  simp [natKey]

theorem natKey_injective : Function.Injective natKey := by
  intro m n h
  have hh := congrArg String.length h
  rwa [natKey_length, natKey_length] at hh

/-- C1 (code bug): a negative capacity does not give an unbounded cache.
`NewSimple` and `New` both replace a negative capacity by 1024 and store
that as the enforced bound — contradicting the source's own doc comment
("capacity < 0 means always in memory") and the intent of
`TestAlwaysInMemoryCache` — so after 1025 `Set` calls with pairwise
distinct keys `Len()` is 1024, not 1025: an eviction happened and one
inserted key is no longer present. -/
theorem C1_negative_capacity_clamped_to_1024 :
    (NewSimple (-1)).capacity = 1024 ∧
    (New (-1) 10 0 (some ())).map Cache.capacity = Except.ok 1024 ∧
    bigSets.length = 1025 ∧
    ((NewSimple (-1)).runSets bigSets).Len = 1024 := by
  refine ⟨rfl, rfl, by simp [bigSets], ?_⟩
  have hcapfield : (NewSimple (-1)).capacity = 1024 := rfl
  rw [runSets_eq_runOps]
  obtain ⟨hwf, _, hkeys, _⟩ := wfs_runOps (wfs_NewSimple (-1))
    (bigSets.map (fun p => Op.set p.1 p.2)) (fun _ => True)
    (fun x hx => trivial) (fun v hv => trivial)
  have hlen : ((NewSimple (-1)).runOps (bigSets.map (fun p => Op.set p.1 p.2))).Len
      = (((NewSimple (-1)).runOps
          (bigSets.map (fun p => Op.set p.1 p.2))).list.map Element.key).length := by
    rw [SimpleCache.Len, wfs_len_eq hwf, List.length_map]
  have hops : bigSets.map (fun p => Op.set p.1 p.2)
      = ((List.range 1025).map natKey).map (fun k => Op.set k (GoVal.str "x")) := by
    rw [bigSets, List.map_map, List.map_map]
    rfl
  have hnodup : ((List.range 1025).map natKey).Nodup :=
    (List.nodup_range 1025).map natKey_injective
  have habs := absRun_distinct_sets_length (by decide : (0 : Int) ≤ 1024) (GoVal.str "x")
    ((List.range 1025).map natKey) [] hnodup (fun k _ hc => by simp at hc)
    (by simp)
  rw [hlen, hkeys, hcapfield, hops]
  have hmapl : (List.map Element.key (NewSimple (-1)).list) = ([] : List String) := rfl
  rw [hmapl, habs]
  simp

/-! ### The abstract recency order is sorted by time since last touch (C3) -/

theorem sinceLast_append_self (past : List String) (k : String) :
    sinceLast (past ++ [k]) k = 0 := by
  rw [sinceLast, List.reverse_append]
  simp [firstIdx]

theorem sinceLast_append_ne (past : List String) {a k : String} (h : a ≠ k) :
    sinceLast (past ++ [k]) a = sinceLast past a + 1 := by
  rw [sinceLast, sinceLast, List.reverse_append]
  simp only [List.reverse_cons, List.reverse_nil, List.nil_append,
    List.singleton_append, firstIdx]
  rw [if_neg (fun hh => h hh.symm)]
  rfl

theorem phi_touch {past abs l₀ : List String} {k : String}
    (hnd : abs.Nodup) (hmem : ∀ x, x ∈ abs ↔ x ∈ past)
    (hsort : abs.Pairwise (fun a b => sinceLast past a < sinceLast past b))
    (hl₀ : (k ∈ abs ∧ l₀ = abs.erase k) ∨ (k ∉ abs ∧ l₀ = abs)) :
    (k :: l₀).Nodup ∧
    (∀ x, x ∈ k :: l₀ ↔ x ∈ past ++ [k]) ∧
    (k :: l₀).Pairwise
      (fun a b => sinceLast (past ++ [k]) a < sinceLast (past ++ [k]) b) := by
  have hl₀mem : ∀ x ∈ l₀, x ∈ abs ∧ x ≠ k := by
    rcases hl₀ with ⟨hk, rfl⟩ | ⟨hk, rfl⟩
    · intro x hx
      have := (List.Nodup.mem_erase_iff hnd).mp hx
      exact ⟨this.2, this.1⟩
    · intro x hx
      exact ⟨hx, fun hc => hk (hc ▸ hx)⟩
  have hl₀nd : l₀.Nodup := by
    rcases hl₀ with ⟨_, rfl⟩ | ⟨_, rfl⟩
    · exact List.Nodup.erase _ hnd
    · exact hnd
  refine ⟨List.nodup_cons.mpr ⟨fun hc => (hl₀mem k hc).2 rfl, hl₀nd⟩, ?_, ?_⟩
  · intro x
    constructor
    · intro hx
      rcases List.mem_cons.mp hx with rfl | hx
      · exact List.mem_append.mpr (Or.inr (List.mem_singleton.mpr rfl))
      · exact List.mem_append.mpr (Or.inl ((hmem x).mp (hl₀mem x hx).1))
    · intro hx
      rcases List.mem_append.mp hx with hx | hx
      · rcases hl₀ with ⟨hk, rfl⟩ | ⟨hk, rfl⟩
        · by_cases hxk : x = k
          · exact List.mem_cons.mpr (Or.inl hxk)
          · exact List.mem_cons.mpr
              (Or.inr ((List.Nodup.mem_erase_iff hnd).mpr ⟨hxk, (hmem x).mpr hx⟩))
        · exact List.mem_cons.mpr (Or.inr ((hmem x).mpr hx))
      · exact List.mem_cons.mpr (Or.inl (List.mem_singleton.mp hx))
  · refine List.pairwise_cons.mpr ⟨?_, ?_⟩
    · intro b hb
      rw [sinceLast_append_self, sinceLast_append_ne past (hl₀mem b hb).2]
      exact Nat.succ_pos _
    · have hsub : l₀.Sublist abs := by
        rcases hl₀ with ⟨_, rfl⟩ | ⟨_, rfl⟩
        · exact List.erase_sublist _ _
        · exact List.Sublist.refl _
      have hp : l₀.Pairwise (fun a b => sinceLast past a < sinceLast past b) :=
        hsort.sublist hsub
      refine List.Pairwise.imp_of_mem ?_ hp
      intro a b ha hb hr
      rw [sinceLast_append_ne past (hl₀mem a ha).2,
        sinceLast_append_ne past (hl₀mem b hb).2]
      exact Nat.succ_lt_succ hr

theorem nodup_length_le_dedup {l m : List String} (h : l.Nodup)
    (hsub : ∀ x ∈ l, x ∈ m) : l.length ≤ m.dedup.length := by
  rw [← List.toFinset_card_of_nodup h, ← List.card_toFinset]
  exact Finset.card_le_card
    (fun x hx => List.mem_toFinset.mpr (hsub x (List.mem_toFinset.mp hx)))

theorem dedup_length_eq_of_mem_iff {l m : List String}
    (h : ∀ x, x ∈ l ↔ x ∈ m) : l.dedup.length = m.dedup.length := by
  rw [← List.card_toFinset, ← List.card_toFinset]
  congr 1
  ext x
  simp [h x]

theorem nodup_length_eq_dedup {l m : List String} (hnd : l.Nodup)
    (h : ∀ x, x ∈ l ↔ x ∈ m) : l.length = m.dedup.length := by
  rw [← List.toFinset_card_of_nodup hnd, ← List.card_toFinset]
  congr 1
  ext x
  simp [h x]

theorem abs_walk (cap : Int) (hcap : 0 ≤ cap) :
    ∀ (ops : List Op) (past abs seen : List String),
      abs.Nodup →
      (∀ x, x ∈ abs ↔ x ∈ past) →
      abs.Pairwise (fun a b => sinceLast past a < sinceLast past b) →
      (∀ x ∈ seen, x ∈ past) →
      goodFrom seen ops = true →
      (past ++ opsKeysOf ops).dedup.length ≤ cap.toNat →
      (absRun cap abs ops).Nodup ∧
      (∀ x, x ∈ absRun cap abs ops ↔ x ∈ past ++ opsKeysOf ops) ∧
      (absRun cap abs ops).Pairwise
        (fun a b => sinceLast (past ++ opsKeysOf ops) a
          < sinceLast (past ++ opsKeysOf ops) b) := by
  intro ops
  induction ops with
  | nil =>
    intro past abs seen hnd hmem hsort hseen hgood hcount
    have h0 : opsKeysOf [] = ([] : List String) := rfl
    rw [h0, List.append_nil]
    exact ⟨hnd, hmem, hsort⟩
  | cons op rest ih =>
    intro past abs seen hnd hmem hsort hseen hgood hcount
    cases op with
    | set k v =>
      have hpast : past ++ opsKeysOf (Op.set k v :: rest)
          = (past ++ [k]) ++ opsKeysOf rest := by
        show past ++ (k :: opsKeysOf rest) = _
        rw [List.append_cons]
      rw [hpast] at hcount ⊢
      have hseen' : ∀ x ∈ k :: seen, x ∈ past ++ [k] := by
        intro x hx
        rcases List.mem_cons.mp hx with rfl | hx
        · exact List.mem_append.mpr (Or.inr (List.mem_singleton.mpr rfl))
        · exact List.mem_append.mpr (Or.inl (hseen x hx))
      have hgood' : goodFrom (k :: seen) rest = true := hgood
      by_cases hkabs : k ∈ abs
      · have habs : absApply cap abs (Op.set k v) = k :: abs.erase k := by
          rw [absApply, if_pos hkabs]
        obtain ⟨hnd', hmem', hsort'⟩ := phi_touch hnd hmem hsort (Or.inl ⟨hkabs, rfl⟩)
        rw [absRun_cons, habs]
        exact ih (past ++ [k]) (k :: abs.erase k) (k :: seen) hnd' hmem' hsort'
          hseen' hgood' hcount
      · have hnd1 : (k :: abs).Nodup := List.nodup_cons.mpr ⟨hkabs, hnd⟩
        have hsub1 : ∀ x ∈ k :: abs, x ∈ (past ++ [k]) ++ opsKeysOf rest := by
          intro x hx
          rcases List.mem_cons.mp hx with rfl | hx
          · exact List.mem_append.mpr
              (Or.inl (List.mem_append.mpr (Or.inr (List.mem_singleton.mpr rfl))))
          · exact List.mem_append.mpr
              (Or.inl (List.mem_append.mpr (Or.inl ((hmem x).mp hx))))
        have hlen1 : abs.length + 1 ≤ cap.toNat := by
          have h1 := nodup_length_le_dedup hnd1 hsub1
          rw [List.length_cons] at h1
          exact le_trans h1 hcount
        have hnotc : ¬(0 ≤ cap ∧ cap < ((abs.length + 1 : Nat) : Int)) := by
          intro hc
          have h2 : ((abs.length + 1 : Nat) : Int) ≤ (cap.toNat : Int) := by
            exact_mod_cast hlen1
          rw [Int.toNat_of_nonneg hcap] at h2
          omega
        have habs : absApply cap abs (Op.set k v) = k :: abs := by
          rw [absApply, if_neg hkabs, if_neg hnotc]
        obtain ⟨hnd', hmem', hsort'⟩ := phi_touch hnd hmem hsort (Or.inr ⟨hkabs, rfl⟩)
        rw [absRun_cons, habs]
        exact ih (past ++ [k]) (k :: abs) (k :: seen) hnd' hmem' hsort'
          hseen' hgood' hcount
    | get k =>
      have hpast : past ++ opsKeysOf (Op.get k :: rest)
          = (past ++ [k]) ++ opsKeysOf rest := by
        show past ++ (k :: opsKeysOf rest) = _
        rw [List.append_cons]
      rw [hpast] at hcount ⊢
      have hg : (decide (k ∈ seen) && goodFrom seen rest) = true := hgood
      have hks : k ∈ seen := of_decide_eq_true ((Bool.and_eq_true _ _).mp hg).1
      have hkabs : k ∈ abs := (hmem k).mpr (hseen k hks)
      have habs : absApply cap abs (Op.get k) = k :: abs.erase k := by
        rw [absApply, if_pos hkabs]
      have hseen' : ∀ x ∈ seen, x ∈ past ++ [k] := fun x hx =>
        List.mem_append.mpr (Or.inl (hseen x hx))
      have hgood' : goodFrom seen rest = true := ((Bool.and_eq_true _ _).mp hg).2
      obtain ⟨hnd', hmem', hsort'⟩ := phi_touch hnd hmem hsort (Or.inl ⟨hkabs, rfl⟩)
      rw [absRun_cons, habs]
      exact ih (past ++ [k]) (k :: abs.erase k) seen hnd' hmem' hsort'
        hseen' hgood' hcount

theorem mem_opsKeysOf_of_mem_setKeysOf :
    ∀ {ops : List Op} {x : String}, x ∈ setKeysOf ops → x ∈ opsKeysOf ops := by
  intro ops
  induction ops with
  | nil =>
    intro x hx
    exact absurd hx (List.not_mem_nil x)
  | cons op rest ih =>
    intro x hx
    cases op with
    | set k v =>
      have hx' : x ∈ k :: setKeysOf rest := hx
      have hgoal : x ∈ k :: opsKeysOf rest → x ∈ opsKeysOf (Op.set k v :: rest) :=
        fun h => h
      rcases List.mem_cons.mp hx' with rfl | hx'
      · exact hgoal (List.mem_cons_self _ _)
      · exact hgoal (List.mem_cons_of_mem _ (ih hx'))
    | get k =>
      have hx' : x ∈ setKeysOf rest := hx
      have hgoal : x ∈ k :: opsKeysOf rest → x ∈ opsKeysOf (Op.get k :: rest) :=
        fun h => h
      exact hgoal (List.mem_cons_of_mem _ (ih hx'))

theorem mem_setKeysOf_of_mem_opsKeysOf :
    ∀ {ops : List Op} {seen : List String} {x : String},
      goodFrom seen ops = true → x ∈ opsKeysOf ops →
      x ∈ setKeysOf ops ∨ x ∈ seen := by
  intro ops
  induction ops with
  | nil =>
    intro seen x _ hx
    exact absurd hx (List.not_mem_nil x)
  | cons op rest ih =>
    intro seen x hgood hx
    cases op with
    | set k v =>
      have hx' : x ∈ k :: opsKeysOf rest := hx
      have hgood' : goodFrom (k :: seen) rest = true := hgood
      rcases List.mem_cons.mp hx' with rfl | hx'
      · exact Or.inl (List.mem_cons_self _ _)
      · rcases ih hgood' hx' with h | h
        · exact Or.inl (List.mem_cons_of_mem _ h)
        · rcases List.mem_cons.mp h with rfl | h
          · exact Or.inl (List.mem_cons_self _ _)
          · exact Or.inr h
    | get k =>
      have hx' : x ∈ k :: opsKeysOf rest := hx
      have hg : (decide (k ∈ seen) && goodFrom seen rest) = true := hgood
      have hks : k ∈ seen := of_decide_eq_true ((Bool.and_eq_true _ _).mp hg).1
      have hgood' : goodFrom seen rest = true := ((Bool.and_eq_true _ _).mp hg).2
      rcases List.mem_cons.mp hx' with rfl | hx'
      · exact Or.inr hks
      · exact ih hgood' hx'

theorem get_nil_iff {c : SimpleCache} (hwf : WFS c)
    (hnn : ∀ x ∈ c.list, x.value ≠ GoVal.nil) (k : String) :
    ((c.Get k).1 = GoVal.nil ↔ k ∉ c.list.map Element.key) := by
  cases hl : mapLookup c.data k with
  | none =>
    rw [get_eq_of_lookup_none hl]
    exact iff_of_true rfl ((wfs_lookup_none_iff hwf k).mp hl)
  | some i =>
    obtain ⟨e, hf, he, hid, hkey⟩ := invS_handle hwf.toInvS hl
    rw [get_eq_of_found hl hf]
    have hkmem : k ∈ c.list.map Element.key := List.mem_map.mpr ⟨e, he, hkey⟩
    exact iff_of_false (hnn e he) (fun hc => hc hkmem)

theorem back1_mem_of_ne_nil (e : Element) :
    ∀ {l : List Element}, l ≠ [] → back1 e l ∈ l := by
  intro l
  induction l generalizing e with
  | nil =>
    intro h
    exact absurd rfl h
  | cons x rest ih =>
    intro _
    cases rest with
    | nil => exact List.mem_cons_self x []
    | cons y t => exact List.mem_cons_of_mem _ (ih x (by simp))

theorem get_after_set_fresh {c : SimpleCache} {k : String} (v : GoVal)
    (hl : mapLookup c.data k = none)
    (hcap : 0 ≤ c.capacity ∧ c.capacity < ((c.data.length + 1 : Nat) : Int))
    (hbk : (back1 ⟨c.nextId, k, v⟩ c.list).key ≠ k)
    (hlist : c.list ≠ []) :
    ((c.Set k v).Get k).1 = v := by
  rw [set_eq_of_miss_evict v hl hcap]
  cases hL : c.list with
  | nil => exact absurd hL hlist
  | cons x rest =>
    have hbk' : (back1 ⟨c.nextId, k, v⟩ (x :: rest)).key ≠ k := by
      rw [← hL]
      exact hbk
    have hlk : mapLookup (mapErase ((k, c.nextId) :: c.data)
        (back1 ⟨c.nextId, k, v⟩ (x :: rest)).key) k = some c.nextId := by
      rw [mapLookup_mapErase_ne _ (Ne.symm hbk'), mapLookup, if_pos rfl]
    have hdb : dropBack1 (⟨c.nextId, k, v⟩ : Element) (x :: rest)
        = (⟨c.nextId, k, v⟩ : Element) :: dropBack1 x rest := rfl
    have hfind : findElem ((⟨c.nextId, k, v⟩ : Element) :: dropBack1 x rest) c.nextId
        = some ⟨c.nextId, k, v⟩ := by
      rw [findElem, if_pos rfl]
    simp [SimpleCache.Get, hlk, hdb, hfind]

/-- C3: with positive capacity N, after any `Set`/`Get` trace that sets N
distinct keys (each `Get` touching a previously-`Set` key) and then one
more `Set` of a fresh key, exactly the least-recently-touched key becomes
unretrievable: `Get` returns `nil` for a touched key precisely when every
other touched key was touched more recently (`sinceLast` measures touches
back from the end of the trace's key sequence, `Set` and `Get` alike), and
the freshly set key is retrievable with its value.  Stored values are
assumed non-`nil` so that a `nil` from `Get` means absence (see C7). -/
theorem C3_lru_evicts_least_recently_touched
    (N : Nat) (hN : 0 < N) (ops : List Op) (k : String) (v : GoVal)
    (hdist : (setKeysOf ops).dedup.length = N)
    (hgood : goodFrom [] ops = true)
    (hfresh : k ∉ opsKeysOf ops)
    (hvals : ∀ w ∈ setValsOf ops, w ≠ GoVal.nil)
    (hv : v ≠ GoVal.nil) :
    (∀ k' ∈ opsKeysOf ops,
      ((((NewSimple (N : Int)).runOps ops).Set k v).Get k').1 = GoVal.nil ↔
        (∀ k2 ∈ opsKeysOf ops, k2 ≠ k' →
          sinceLast (opsKeysOf ops) k2 < sinceLast (opsKeysOf ops) k')) ∧
    ((((NewSimple (N : Int)).runOps ops).Set k v).Get k).1 = v := by
  have hNnn : (0 : Int) ≤ (N : Int) := Int.natCast_nonneg N
  have capf : (NewSimple (N : Int)).capacity = (N : Int) := by
    show (if (N : Int) < 0 then (1024 : Int) else (N : Int)) = (N : Int)
    rw [if_neg (not_lt.mpr hNnn)]
  obtain ⟨hwf, hcapr, hkeys, hnnst⟩ := wfs_runOps (wfs_NewSimple (N : Int)) ops
    (fun w => w ≠ GoVal.nil) (fun x hx => absurd hx (List.not_mem_nil x)) hvals
  have hinit : (NewSimple (N : Int)).list.map Element.key = ([] : List String) := rfl
  rw [capf] at hcapr
  rw [hinit] at hkeys
  rw [capf] at hkeys
  have hiffos : ∀ x, x ∈ opsKeysOf ops ↔ x ∈ setKeysOf ops := by
    intro x
    constructor
    · intro hx
      rcases mem_setKeysOf_of_mem_opsKeysOf hgood hx with h | h
      · exact h
      · exact absurd h (List.not_mem_nil x)
    · exact mem_opsKeysOf_of_mem_setKeysOf
  have hcount : (([] : List String) ++ opsKeysOf ops).dedup.length ≤ (N : Int).toNat := by
    rw [List.nil_append, dedup_length_eq_of_mem_iff hiffos, hdist]
    omega
  obtain ⟨Wnd, Wmem0, Wsort0⟩ := abs_walk (N : Int) hNnn ops [] [] []
    List.nodup_nil (fun x => Iff.rfl) List.Pairwise.nil
    (fun x hx => absurd hx (List.not_mem_nil x)) hgood hcount
  simp only [List.nil_append] at Wmem0 Wsort0
  set A := absRun (N : Int) [] ops with hA
  have hlenA : A.length = N := by
    have hh := nodup_length_eq_dedup Wnd (fun x => (Wmem0 x).trans (hiffos x))
    rw [hh, hdist]
  have hAne : A ≠ [] := by
    intro hc
    rw [hc] at hlenA
    simp at hlenA
    omega
  set e0 := A.getLast hAne with he0
  have hA_split : A.dropLast ++ [e0] = A := List.dropLast_append_getLast hAne
  have hkA : k ∉ A := fun hc => hfresh ((Wmem0 k).mp hc)
  have hlkst : mapLookup ((NewSimple (N : Int)).runOps ops).data k = none :=
    (wfs_lookup_none_iff hwf k).mpr (by rw [hkeys]; exact hkA)
  have hlen_st : ((NewSimple (N : Int)).runOps ops).data.length = N := by
    rw [wfs_len_eq hwf,
      ← List.length_map ((NewSimple (N : Int)).runOps ops).list Element.key,
      hkeys, hlenA]
  have hcond : 0 ≤ ((NewSimple (N : Int)).runOps ops).capacity ∧
      ((NewSimple (N : Int)).runOps ops).capacity
        < ((((NewSimple (N : Int)).runOps ops).data.length + 1 : Nat) : Int) := by
    rw [hcapr, hlen_st]
    exact ⟨hNnn, by exact_mod_cast Nat.lt_succ_self N⟩
  obtain ⟨hwf', hcap', hkeys', hvals'⟩ := wfs_Set hwf k v
  have habsA : absApply ((NewSimple (N : Int)).runOps ops).capacity
      (((NewSimple (N : Int)).runOps ops).list.map Element.key) (Op.set k v)
      = (k :: A).dropLast := by
    rw [hcapr, hkeys, absApply, if_neg hkA,
      if_pos ⟨hNnn, by rw [hlenA]; exact_mod_cast Nat.lt_succ_self N⟩]
  rw [habsA] at hkeys'
  have hdropk : (k :: A).dropLast = k :: A.dropLast := by
    conv_lhs => rw [← hA_split]
    rw [← List.cons_append, List.dropLast_concat]
  rw [hdropk] at hkeys'
  have hnn' : ∀ x ∈ (((NewSimple (N : Int)).runOps ops).Set k v).list,
      x.value ≠ GoVal.nil := by
    intro x hx
    rcases hvals' x hx with h | h
    · rw [h]
      exact hv
    · exact hnnst x h
  have hlistne : ((NewSimple (N : Int)).runOps ops).list ≠ [] := by
    intro hc
    apply hAne
    rw [← hkeys, hc]
    rfl
  have hbk : (back1 ⟨((NewSimple (N : Int)).runOps ops).nextId, k, v⟩
      ((NewSimple (N : Int)).runOps ops).list).key ≠ k := by
    intro hc
    have hmemb := back1_mem_of_ne_nil
      (⟨((NewSimple (N : Int)).runOps ops).nextId, k, v⟩ : Element) hlistne
    have hmm := List.mem_map_of_mem Element.key hmemb
    rw [hkeys, hc] at hmm
    exact hkA hmm
  have hpart2 : ((((NewSimple (N : Int)).runOps ops).Set k v).Get k).1 = v :=
    get_after_set_fresh v hlkst hcond hbk hlistne
  refine ⟨?_, hpart2⟩
  intro k' hk'
  have hk'A : k' ∈ A := (Wmem0 k').mpr hk'
  have hk'nek : k' ≠ k := fun hc => hfresh (by rw [← hc]; exact hk')
  rw [get_nil_iff hwf' hnn' k', hkeys']
  have hnotin_iff : k' ∉ (k :: A.dropLast) ↔ k' = e0 := by
    constructor
    · intro hni
      by_contra hne
      have hdl : k' ∈ A.dropLast := by
        have hh := hk'A
        rw [← hA_split] at hh
        rcases List.mem_append.mp hh with h | h
        · exact h
        · exact absurd (List.mem_singleton.mp h) hne
      exact hni (List.mem_cons_of_mem _ hdl)
    · intro heq hmem
      rcases List.mem_cons.mp hmem with h | h
      · exact hk'nek h
      · have hnd2 := Wnd
        rw [← hA_split] at hnd2
        have hdisj := (List.nodup_append.mp hnd2).2.2
        rw [heq] at h
        exact hdisj h (List.mem_singleton.mpr rfl)
  have hrhs_iff : (∀ k2 ∈ opsKeysOf ops, k2 ≠ k' →
      sinceLast (opsKeysOf ops) k2 < sinceLast (opsKeysOf ops) k') ↔ k' = e0 := by
    constructor
    · intro hall
      by_contra hne
      have he0A : e0 ∈ A := by
        rw [← hA_split]
        exact List.mem_append.mpr (Or.inr (List.mem_singleton.mpr rfl))
      have he0ops : e0 ∈ opsKeysOf ops := (Wmem0 e0).mp he0A
      have h1 : sinceLast (opsKeysOf ops) e0 < sinceLast (opsKeysOf ops) k' :=
        hall e0 he0ops (fun hc => hne hc.symm)
      have hk'dl : k' ∈ A.dropLast := by
        have hh := hk'A
        rw [← hA_split] at hh
        rcases List.mem_append.mp hh with h | h
        · exact h
        · exact absurd (List.mem_singleton.mp h) hne
      have hsort2 := Wsort0
      rw [← hA_split] at hsort2
      have hpa := (List.pairwise_append.mp hsort2).2.2
      have h2 : sinceLast (opsKeysOf ops) k' < sinceLast (opsKeysOf ops) e0 :=
        hpa k' hk'dl e0 (List.mem_singleton.mpr rfl)
      omega
    · intro heq k2 hk2 hk2ne
      have hk2A : k2 ∈ A := (Wmem0 k2).mpr hk2
      have hk2dl : k2 ∈ A.dropLast := by
        rw [← hA_split] at hk2A
        rcases List.mem_append.mp hk2A with h | h
        · exact h
        · exfalso
          rw [heq] at hk2ne
          exact hk2ne (List.mem_singleton.mp h)
      have hsort2 := Wsort0
      rw [← hA_split] at hsort2
      have hpa := (List.pairwise_append.mp hsort2).2.2
      have hh := hpa k2 hk2dl e0 (List.mem_singleton.mpr rfl)
      rw [heq]
      exact hh
  rw [hnotin_iff]
  exact hrhs_iff.symm

/-- Witness for C3 at the spec's example: capacity 3, `Set a; Set b;
Set c; Get a; Set d` — key `b` (the least recently touched) is evicted
while `a` survives thanks to its `Get`, and `d` is retrievable. -/
theorem C3_witness :
    ((((NewSimple 3).runOps [Op.set "a" (GoVal.str "1"), Op.set "b" (GoVal.str "2"),
        Op.set "c" (GoVal.str "3"), Op.get "a"]).Set "d" (GoVal.str "4")).Get "b").1
      = GoVal.nil ∧
    ((((NewSimple 3).runOps [Op.set "a" (GoVal.str "1"), Op.set "b" (GoVal.str "2"),
        Op.set "c" (GoVal.str "3"), Op.get "a"]).Set "d" (GoVal.str "4")).Get "a").1
      ≠ GoVal.nil ∧
    ((((NewSimple 3).runOps [Op.set "a" (GoVal.str "1"), Op.set "b" (GoVal.str "2"),
        Op.set "c" (GoVal.str "3"), Op.get "a"]).Set "d" (GoVal.str "4")).Get "d").1
      = GoVal.str "4" := by
  have h := C3_lru_evicts_least_recently_touched 3 (by decide)
    [Op.set "a" (GoVal.str "1"), Op.set "b" (GoVal.str "2"),
      Op.set "c" (GoVal.str "3"), Op.get "a"] "d" (GoVal.str "4")
    (by decide) (by decide) (by decide) (by decide) (by decide)
  refine ⟨(h.1 "b" (by decide)).mpr (by decide), ?_, h.2⟩
  intro hc
  have hmp := (h.1 "a" (by decide)).mp hc
  exact absurd (hmp "b" (by decide) (by decide)) (by decide)
